import Mathlib

/-!
# Verification of the Key-Kid cipher-cracking toolbox

Shallow embedding of the scoring-driven brute-force search core of the
Key-Kid repository (`src/utils/scoring.py`, `src/tools/rot.py`,
`src/tools/classic.py`, `src/tools/xor.py`, `src/tools/decode.py`,
`src/tools/number.py`, `src/tools/models.py`), together with proofs of the
spec's testable properties.

Modelling conventions:
* Python `str` is modelled as `List Char`; Python `bytes` as `List ℕ`
  (each entry < 256 by construction).
* Python `float` is modelled as `ℚ` with exact arithmetic; every constant
  of the source (`0.7`, `0.038`, `10.0`, …) is carried as the exact
  rational it denotes.
* Python character predicates (`str.isprintable`, `str.isalpha`,
  `str.lower`) are Unicode-aware; the embedding is faithful on ASCII
  (code points < 128) and theorems whose meaning depends on these
  predicates carry an explicit ASCII hypothesis.
* Raising an exception is modelled by `Except String`; the pydantic
  `BaseModel` field validation of `models.py` (`Field(ge=0, le=1)`) is the
  `mk…` smart constructors below.
-/

namespace KeyKid

/-- Python `str` model. -/
abbrev Str := List Char

/-- The character `{` (written numerically throughout). -/
def braceL : Char := Char.ofNat 123

/-- The character `}` (written numerically throughout). -/
def braceR : Char := Char.ofNat 125

/-- `str.lower` per character; faithful to Python on ASCII. -/
def lowerChar (c : Char) : Char :=
  if 'A' ≤ c ∧ c ≤ 'Z' then Char.ofNat (c.toNat + 32) else c

/-- Python `str.isprintable` per character, faithful on ASCII
(`0x20 ≤ c ≤ 0x7e`); non-ASCII code points are approximated by `false`
(they never occur in the inputs of the theorems below). -/
def pyPrintable (c : Char) : Bool :=
  32 ≤ c.toNat && c.toNat ≤ 126

/-- Python `str.isalpha` per character, faithful on ASCII (`A`–`Z`,
`a`–`z`); non-ASCII code points are approximated by `false`. -/
def pyAlpha (c : Char) : Bool :=
  ('A' ≤ c && c ≤ 'Z') || ('a' ≤ c && c ≤ 'z')

/-- `LETTER_FREQ` of `src/utils/scoring.py` (26 letters and space). -/
def letterTable : List (Char × ℚ) :=
  [ ('a', 8167/100000), ('b', 1492/100000), ('c', 2782/100000),
    ('d', 4253/100000), ('e', 12702/100000), ('f', 2228/100000),
    ('g', 2015/100000), ('h', 6094/100000), ('i', 6966/100000),
    ('j', 153/100000), ('k', 772/100000), ('l', 4025/100000),
    ('m', 2406/100000), ('n', 6749/100000), ('o', 7507/100000),
    ('p', 1929/100000), ('q', 95/100000), ('r', 5987/100000),
    ('s', 6327/100000), ('t', 9056/100000), ('u', 2758/100000),
    ('v', 978/100000), ('w', 2360/100000), ('x', 150/100000),
    ('y', 1974/100000), ('z', 74/100000), (' ', 13000/100000) ]

/-- `ch in LETTER_FREQ` / `LETTER_FREQ[ch]` lookup. -/
def letterFreq (c : Char) : Option ℚ :=
  (letterTable.find? (fun e => e.1 == c)).map (·.2)

/-- `BIGRAM_FREQ` of `src/utils/scoring.py`. -/
def bigramTable : List ((Char × Char) × ℚ) :=
  [ (('t','h'), 152/10000), (('h','e'), 128/10000), (('i','n'), 94/10000),
    (('e','r'), 94/10000), (('a','n'), 82/10000), (('r','e'), 68/10000),
    (('n','d'), 63/10000), (('a','t'), 59/10000), (('o','n'), 57/10000),
    (('n','t'), 56/10000), (('h','a'), 56/10000), (('e','s'), 56/10000),
    (('s','t'), 55/10000), (('e','n'), 55/10000), (('e','d'), 53/10000),
    (('t','o'), 52/10000), (('i','t'), 50/10000), (('o','u'), 50/10000),
    (('e','a'), 47/10000), (('h','i'), 46/10000), (('i','s'), 46/10000),
    (('o','r'), 43/10000), (('t','i'), 34/10000), (('a','s'), 33/10000),
    (('t','e'), 27/10000), (('e','t'), 19/10000), (('n','g'), 18/10000),
    (('o','f'), 16/10000), (('a','l'), 9/10000), (('d','e'), 9/10000),
    (('s','e'), 8/10000), (('l','e'), 8/10000), (('s','a'), 6/10000),
    (('s','i'), 5/10000), (('a','r'), 4/10000), (('v','e'), 4/10000),
    (('r','a'), 4/10000), (('l','d'), 2/10000), (('u','r'), 2/10000) ]

/-- `bg in BIGRAM_FREQ` / `BIGRAM_FREQ[bg]` lookup. -/
def bigramFreq (a b : Char) : Option ℚ :=
  (bigramTable.find? (fun e => e.1 == (a, b))).map (·.2)

/-- The four trigger words of `FLAG_PATTERN`. -/
def flagWords : List Str :=
  ["flag".data, "ctf".data, "key".data, "secret".data]

/-- Case-insensitive prefix stripping, returning the remainder. -/
def stripCI : Str → Str → Option Str
  | [], s => some s
  | _ :: _, [] => none
  | w :: ws, c :: cs => if lowerChar c = lowerChar w then stripCI ws cs else none

/-- After `word{` was consumed: the regex tail `.*?\}` of `FLAG_PATTERN`
matches here iff a `}` occurs before any newline (`.` does not match
`\n`; non-greediness is irrelevant for existence of a match). -/
def flagTail : Str → Bool
  | [] => false
  | c :: cs => if c = braceR then true else if c = '\n' then false else flagTail cs

/-- Does `FLAG_PATTERN` match at the start of `s`? -/
def flagHere (s : Str) : Bool :=
  flagWords.any (fun w =>
    match stripCI (w ++ [braceL]) s with
    | some rest => flagTail rest
    | none => false)

/-- `FLAG_PATTERN.search(s)`: does `(flag|ctf|key|secret)\{.*?\}`
(case-insensitive) match anywhere in `s`? -/
def flagMatch : Str → Bool
  | [] => false
  | s@(_ :: rest) => flagHere s || flagMatch rest

/-- `english_score` of `src/utils/scoring.py` (floats as exact rationals;
the `lru_cache` memoization is semantically transparent since the function
is pure). -/
def english_score (s : Str) : ℚ :=
  if s = [] then 0
  else if flagMatch s then 10
  else
    let n : ℚ := s.length
    let letterScore : ℚ := (s.map (fun c => (letterFreq (lowerChar c)).getD 0)).sum
    let printableCount : ℚ := (s.filter pyPrintable).length
    let alphaCount : ℚ := (s.filter pyAlpha).length
    if printableCount / n < 7/10 then 0
    else if alphaCount / n < 1/2 then 0
    else
      let avgLetter := letterScore / n
      let normalizedLetter := max 0 (min 1 ((avgLetter - 38/1000) / (31/1000)))
      let sLower := s.map lowerChar
      let hits := (sLower.zip sLower.tail).filterMap (fun p => bigramFreq p.1 p.2)
      let bigramScore : ℚ :=
        if 0 < hits.length then (min (5/100) (hits.sum / hits.length)) / (5/1000)
        else 0
      min 1 (normalizedLetter * (7/10) + bigramScore * (3/10))

/-!
## Stable sorting

Python's `list.sort(key=…, reverse=True)` is a stable sort: the result is
in non-increasing key order and elements with equal keys keep their
original relative order.  Any stable sort with respect to the same
preorder computes the same list, so we model it by a stable insertion
sort (structural recursion, so that the kernel can evaluate it). -/

/-- Insert `x` in front of the first element with a strictly smaller key
(so that `x` comes after all earlier-enumerated elements of equal key). -/
def insDesc [LinearOrder β] (key : α → β) (x : α) : List α → List α
  | [] => [x]
  | y :: ys => if key y ≤ key x then x :: y :: ys else y :: insDesc key x ys

/-- `list.sort(key=key, reverse=True)`: stable descending sort. -/
def pySortDesc [LinearOrder β] (key : α → β) (l : List α) : List α :=
  l.foldr (insDesc key) []

/-- Insert `x` in front of the first element with a strictly larger key. -/
def insAsc [LinearOrder β] (key : α → β) (x : α) : List α → List α
  | [] => [x]
  | y :: ys => if key x ≤ key y then x :: y :: ys else y :: insAsc key x ys

/-- `list.sort(key=key)`: stable ascending sort. -/
def pySortAsc [LinearOrder β] (key : α → β) (l : List α) : List α :=
  l.foldr (insAsc key) []

/-!
## Result models (`src/tools/models.py`)

`BreakResult` and `DetectionCandidate` are pydantic models whose
`confidence` / `score` field carries `Field(ge=0, le=1)`: constructing one
with a value outside `[0, 1]` raises `pydantic.ValidationError`.  The
smart constructors below model exactly that validation. -/

/-- `BreakResult` of `src/tools/models.py`. -/
structure BreakResult where
  algorithm : Str
  plaintext : Str
  key : Option Str
  confidence : ℚ
deriving DecidableEq, Repr

/-- `DetectionCandidate` of `src/tools/models.py`. -/
structure DetectionCandidate where
  name : Str
  score : ℚ
  decoded : Option Str
deriving DecidableEq, Repr

/-- `FactorResult` of `src/tools/models.py` (no constrained fields). -/
structure FactorResult where
  n : Str
  factors : List Str
deriving DecidableEq, Repr

deriving instance DecidableEq for Except

/-- Error message standing for `pydantic.ValidationError`. -/
def validationError : String := "ValidationError: value not in [0, 1]"

/-- `BreakResult(...)`: pydantic validation of `confidence`. -/
def mkBreakResult (alg pt : Str) (key : Option Str) (conf : ℚ) :
    Except String BreakResult :=
  if 0 ≤ conf ∧ conf ≤ 1 then .ok ⟨alg, pt, key, conf⟩ else .error validationError

/-- `DetectionCandidate(...)`: pydantic validation of `score`. -/
def mkDetectionCandidate (name : Str) (score : ℚ) (decoded : Option Str) :
    Except String DetectionCandidate :=
  if 0 ≤ score ∧ score ≤ 1 then .ok ⟨name, score, decoded⟩ else .error validationError

/-- Sequence a list of fallible constructions, propagating the first
raised exception (the Python loops construct results one by one). -/
def mapE (f : α → Except ε β) : List α → Except ε (List β)
  | [] => .ok []
  | x :: xs =>
    match f x with
    | .error e => .error e
    | .ok y =>
      match mapE f xs with
      | .error e => .error e
      | .ok ys => .ok (y :: ys)

/-- Decimal string of a natural number (Python `str(k)`). -/
def natStr (k : ℕ) : Str := (toString k).data

/-!
## Shift cipher tools (`src/tools/rot.py`, `src/tools/classic.py`)
-/

/-- `_shift_char` of `src/tools/classic.py` (also the per-character body
of the loop in `rot_all`): rotate an ASCII letter backward by `k` within
its own case, pass anything else through. -/
def shiftChar (c : Char) (k : ℕ) : Char :=
  if 'A' ≤ c ∧ c ≤ 'Z' then Char.ofNat ((c.toNat - 65 + (26 - k % 26)) % 26 + 65)
  else if 'a' ≤ c ∧ c ≤ 'z' then Char.ofNat ((c.toNat - 97 + (26 - k % 26)) % 26 + 97)
  else c

/-- Decode a whole string for shift `k`. -/
def shiftDecode (s : Str) (k : ℕ) : Str := s.map (shiftChar · k)

/-- The candidate `BreakResult` of `rot_all` for shift `k`, before
pydantic validation. -/
def rotRaw (text : Str) (k : ℕ) : BreakResult :=
  ⟨"ROT".data ++ natStr k, shiftDecode text k, some (natStr k),
    english_score (shiftDecode text k)⟩

/-- The list of 25 candidates `rot_all` enumerates (shifts 1..25), in
enumeration order. -/
def rotCandidates (text : Str) : List BreakResult :=
  (List.range' 1 25).map (rotRaw text)

/-- `rot_all` of `src/tools/rot.py`: enumerate shifts 1..25, score, sort
by confidence descending (stable), return the first `top_k`.  Each
candidate is a pydantic `BreakResult`, so a confidence outside `[0,1]`
(the `10.0` flag sentinel) raises. -/
def rot_all (text : Str) (topK : ℕ) : Except String (List BreakResult) := do
  let results ← mapE (fun k => mkBreakResult ("ROT".data ++ natStr k)
    (shiftDecode text k) (some (natStr k)) (english_score (shiftDecode text k)))
    (List.range' 1 25)
  pure ((pySortDesc BreakResult.confidence results).take topK)

/-- `caesar_break` of `src/tools/classic.py`: running maximum over shifts
0..25 with strict improvement, starting from the worst-case placeholder. -/
def caesar_break (ciphertext : Str) : Except String BreakResult := do
  let init : BreakResult := ⟨"Caesar".data, [], some (natStr 0), 0⟩
  (List.range 26).foldlM (fun best k => do
    let pt := shiftDecode ciphertext k
    let sc := english_score pt
    if best.confidence < sc then
      mkBreakResult "Caesar".data pt (some (natStr k)) sc
    else
      pure best) init

/-!
## Vigenère (`vigenere_break` of `src/tools/classic.py`)
-/

/-- The column for key position `i` and key length `klen`: alphabetic
characters of `text` whose position in `text` is `≡ i (mod klen)`. -/
def vigColumn (text : Str) (klen i : ℕ) : Str :=
  (text.enum.filter (fun p => pyAlpha p.2 && p.1 % klen == i)).map (·.2)

/-- The inner 26-shift brute force: running maximum with strict
improvement; `best_s` starts at `0.0`, `best_k` at `0`. -/
def bestShift (column : Str) : ℕ :=
  ((List.range 26).foldl (fun best k =>
    let s := english_score (shiftDecode column k)
    if best.1 < s then (s, k) else best) ((0 : ℚ), 0)).2

/-- The key guessed for key length `klen`. -/
def vigKey (text : Str) (klen : ℕ) : Str :=
  (List.range klen).map (fun i => Char.ofNat (bestShift (vigColumn text klen i) + 65))

/-- Decode `text` with `key`, stepping the key cursor only on alphabetic
characters. -/
def vigDecode (key : Str) : Str → ℕ → Str
  | [], _ => []
  | c :: cs, ci =>
    if pyAlpha c then
      shiftChar c ((key.getD (ci % key.length) 'A').toNat - 65) :: vigDecode key cs (ci + 1)
    else c :: vigDecode key cs ci

/-- The `(key, score, plaintext)` candidates of `vigenere_break`, in
enumeration order of the key length 2..max_key_len. -/
def vigCandidates (text : Str) (maxKeyLen : ℕ) : List (Str × ℚ × Str) :=
  (List.range' 2 (maxKeyLen - 1)).map (fun klen =>
    let key := vigKey text klen
    let pt := vigDecode key text 0
    (key, english_score pt, pt))

/-- `vigenere_break` of `src/tools/classic.py`.  The tuples are sorted by
score descending (stable) and only the first `top_k` are turned into
pydantic `BreakResult`s. -/
def vigenere_break (ciphertext : Str) (maxKeyLen topK : ℕ) :
    Except String (List BreakResult) :=
  let sorted := pySortDesc (fun t => t.2.1) (vigCandidates ciphertext maxKeyLen)
  mapE (fun t => mkBreakResult "Vigenere".data t.2.2 (some t.1) t.2.1) (sorted.take topK)

/-!
## Affine (`affine_break` of `src/tools/classic.py`)
-/

/-- `_affine_inv`: first `i < 26` with `a * i ≡ 1 (mod 26)`, if any. -/
def affineInv (a : ℕ) : Option ℕ :=
  (List.range 26).find? (fun i => (a * i) % 26 == 1)

/-- Decode one character with inverse coefficient `inv` and shift `b`
(`p = inv * (x - b) mod 26`, Python `%` on possibly negative ints). -/
def affineChar (inv b : ℕ) (ch : Char) : Char :=
  if 'A' ≤ ch ∧ ch ≤ 'Z' then
    Char.ofNat ((((inv : ℤ) * ((ch.toNat : ℤ) - 65 - b)).emod 26).toNat + 65)
  else if 'a' ≤ ch ∧ ch ≤ 'z' then
    Char.ofNat ((((inv : ℤ) * ((ch.toNat : ℤ) - 97 - b)).emod 26).toNat + 97)
  else ch

/-- The `(a, b, inv)` triples `affine_break` enumerates, in order:
`a` in 1..25 restricted to invertible ones, `b` in 0..25. -/
def affineKeys : List (ℕ × ℕ × ℕ) :=
  (List.range' 1 25).flatMap (fun a =>
    match affineInv a with
    | none => []
    | some inv => (List.range 26).map (fun b => (a, b, inv)))

/-- Key rendering `a=<a>,b=<b>`. -/
def affineKeyStr (a b : ℕ) : Str :=
  "a=".data ++ natStr a ++ ",b=".data ++ natStr b

/-- The candidate of `affine_break` for `(a, b, inv)`, before validation. -/
def affineRaw (ct : Str) (t : ℕ × ℕ × ℕ) : BreakResult :=
  ⟨"Affine".data, ct.map (affineChar t.2.2 t.2.1), some (affineKeyStr t.1 t.2.1),
    english_score (ct.map (affineChar t.2.2 t.2.1))⟩

/-- `affine_break` of `src/tools/classic.py`. -/
def affine_break (ciphertext : Str) (topK : ℕ) : Except String (List BreakResult) := do
  let results ← mapE (fun t => mkBreakResult "Affine".data
    (ciphertext.map (affineChar t.2.2 t.2.1)) (some (affineKeyStr t.1 t.2.1))
    (english_score (ciphertext.map (affineChar t.2.2 t.2.1)))) affineKeys
  pure ((pySortDesc BreakResult.confidence results).take topK)

/-!
## Rail fence (`src/tools/classic.py`)
-/

/-- The loop body of `_rail_pattern`: emit the current row, move by `d`,
bounce at row `rails - 1` (downward) and at row `0` (upward).  The row is
kept as a natural number: in Python it is an `int`, but it never becomes
negative (`d = -1` is only ever set at row `rails - 1 ≥ 1` and is reset
to `1` at row `0`). -/
def railPatternAux (rails : ℕ) : ℕ → ℕ → Int → List ℕ
  | 0, _, _ => []
  | steps + 1, r, d =>
    let r' := ((r : Int) + d).toNat
    let d1 : Int := if r' = rails - 1 then -1 else d
    let d2 : Int := if r' = 0 then 1 else d1
    r :: railPatternAux rails steps r' d2

/-- `_rail_pattern(n, rails)` of `src/tools/classic.py`. -/
def railPattern (n rails : ℕ) : List ℕ :=
  railPatternAux rails n 0 1

/-- The ciphertext positions that belong to row `row`, in read order. -/
def railRow (pat : List ℕ) (row : ℕ) : List ℕ :=
  (List.range pat.length).filter (fun i => pat.getD i 0 == row)

/-- The order in which `rail_fence_decrypt` writes the ciphertext back:
the concatenation of all rows' position lists.  (`order[j]` is the
plaintext position of ciphertext character `j`.) -/
def railOrder (n rails : ℕ) : List ℕ :=
  (List.range rails).flatMap (railRow (railPattern n rails))

/-- `rail_fence_decrypt` of `src/tools/classic.py`: `res[order[j]] =
ct[j]`, read off in position order.  (For `rails < 2` and long enough
input the Python code raises `IndexError`; the embedding is total but is
only ever applied at `rails ≥ 2`, as in `rail_fence_break`.) -/
def rail_fence_decrypt (ciphertext : Str) (rails : ℕ) : Str :=
  let order := railOrder ciphertext.length rails
  (List.range ciphertext.length).map (fun i => ciphertext.getD (order.indexOf i) ' ')

/-- The standard zig-zag rail-fence encoding (the inverse transformation
`rail_fence_decrypt` undoes, per spec §4.5: sawtooth row assignment, rows
read off in order).  The repository has no encoder; this is the reference
definition for the round-trip claim, built from the repository's own
`_rail_pattern`. -/
def railFenceEncrypt (s : Str) (rails : ℕ) : Str :=
  (railOrder s.length rails).map (fun j => s.getD j ' ')

/-- The candidates of `rail_fence_break` (rail counts 2..max_rails), in
enumeration order, before validation. -/
def railCandidates (ct : Str) (maxRails : ℕ) : List BreakResult :=
  (List.range' 2 (maxRails - 1)).map (fun rails =>
    ⟨"RailFence".data, rail_fence_decrypt ct rails, some (natStr rails),
      english_score (rail_fence_decrypt ct rails)⟩)

/-- `rail_fence_break` of `src/tools/classic.py`. -/
def rail_fence_break (ciphertext : Str) (maxRails topK : ℕ) :
    Except String (List BreakResult) := do
  let results ← mapE (fun rails => mkBreakResult "RailFence".data
    (rail_fence_decrypt ciphertext rails) (some (natStr rails))
    (english_score (rail_fence_decrypt ciphertext rails)))
    (List.range' 2 (maxRails - 1))
  pure ((pySortDesc BreakResult.confidence results).take topK)

/-!
## Columnar transposition (`src/tools/classic.py`)
-/

/-- `itertools.permutations(range(k))` order: all permutations of the
given (sorted, duplicate-free) list, lexicographically. -/
def permsAux : ℕ → List ℕ → List (List ℕ)
  | 0, _ => [[]]
  | _, [] => [[]]
  | fuel + 1, l => l.flatMap (fun x => (permsAux fuel (l.erase x)).map (x :: ·))

/-- Permutations of `0..k-1` in enumeration order of `itertools`. -/
def permsLex (k : ℕ) : List (List ℕ) :=
  permsAux k (List.range k)

/-- `_column_lengths` of `src/tools/classic.py`. -/
def columnLengths (n k : ℕ) : List ℕ :=
  (List.range k).map (fun i => n / k + if i < n % k then 1 else 0)

/-- The per-column slices of the ciphertext: slice `col_idx` (in
ciphertext order) is assigned to column `key_order.index(col_idx)`.
Returns `cols` indexed by real column position. -/
def transCols (ct : Str) (keyOrder : List ℕ) : List Str :=
  let k := keyOrder.length
  let lens := columnLengths ct.length k
  let assigns := ((List.range k).foldl (fun (acc : List (ℕ × Str) × ℕ) colIdx =>
    let realCol := keyOrder.indexOf colIdx
    let colLen := lens.getD realCol 0
    (acc.1 ++ [(realCol, (ct.drop acc.2).take colLen)], acc.2 + colLen)) ([], 0)).1
  (List.range k).map (fun j => ((assigns.find? (fun p => p.1 == j)).map (·.2)).getD [])

/-- `columnar_transposition_decrypt` of `src/tools/classic.py`: re-order
the column slices and read off row by row.  (Python's `max(lens)` raises
on an empty key; the break routine only uses keys of length ≥ 2.) -/
def columnar_transposition_decrypt (ct : Str) (keyOrder : List ℕ) : Str :=
  let cols := transCols ct keyOrder
  let r := (columnLengths ct.length keyOrder.length).foldr max 0
  (List.range r).flatMap (fun i => cols.filterMap (fun col => col.get? i))

/-- Key rendering for a permutation: indices joined by `-`. -/
def permKeyStr (perm : List ℕ) : Str :=
  (String.intercalate "-" (perm.map (fun x => String.mk (natStr x)))).data

/-- The permutations `transposition_break` enumerates, in order: key
lengths 2..max_key_len, each with all permutations lexicographically. -/
def transKeys (maxKeyLen : ℕ) : List (List ℕ) :=
  (List.range' 2 (maxKeyLen - 1)).flatMap permsLex

/-- `transposition_break` of `src/tools/classic.py`. -/
def transposition_break (ciphertext : Str) (maxKeyLen topK : ℕ) :
    Except String (List BreakResult) := do
  let results ← mapE (fun perm => mkBreakResult "Transposition".data
    (columnar_transposition_decrypt ciphertext perm) (some (permKeyStr perm))
    (english_score (columnar_transposition_decrypt ciphertext perm)))
    (transKeys maxKeyLen)
  pure ((pySortDesc BreakResult.confidence results).take topK)

/-!
## Encoding detection (`detect_encoding` of `src/tools/decode.py`)

`detect_encoding` runs a fixed battery `DECODERS` of independent decoders
(base64/32/16/85, hex, url, unicode-escape, binary), each returning the
decoded text or `None`, scores every successful decode, sorts by score
descending and returns the first `top_k`.  The embedding is parameterized
by the decoder battery: the ranking property claimed of `detect_encoding`
is independent of the individual decoder implementations, and the
theorems below quantify over every battery, which covers the concrete
`DECODERS` list of the source. -/

/-- A decoder battery entry: name and fallible decode function. -/
abbrev Decoder := Str × (Str → Option Str)

/-- The `(name, score, decoded)` candidates of `detect_encoding`, in
battery order, for the successful decoders. -/
def detectRaw (decoders : List Decoder) (text : Str) : List (Str × ℚ × Str) :=
  decoders.filterMap (fun d => (d.2 text).map (fun dec => (d.1, english_score dec, dec)))

/-- `detect_encoding` of `src/tools/decode.py` (parameterized by the
decoder battery, see above). -/
def detect_encoding (decoders : List Decoder) (text : Str) (topK : ℕ) :
    Except String (List DetectionCandidate) := do
  let cands ← mapE (fun t => mkDetectionCandidate t.1 t.2.1 (some t.2.2))
    (detectRaw decoders text)
  pure ((pySortDesc DetectionCandidate.score cands).take topK)

/-!
## Bytes and text codecs

Python `bytes` is `List ℕ` (entries < 256).  `bytes.decode(errors="ignore")`
is UTF-8 decoding that drops invalid (sub)sequences, skipping the maximal
valid prefix of an invalid sequence (CPython behaviour); `str.encode()` is
UTF-8 encoding. -/

/-- Is `b2` a UTF-8 continuation byte? -/
def utf8Cont (b2 : ℕ) : Bool := 128 ≤ b2 && b2 ≤ 191

/-- Allowed second byte for a three-byte lead (`E0` excludes overlongs,
`ED` excludes surrogates). -/
def utf8Snd3 (b b2 : ℕ) : Bool :=
  if b = 224 then 160 ≤ b2 && b2 ≤ 191
  else if b = 237 then 128 ≤ b2 && b2 ≤ 159
  else utf8Cont b2

/-- Allowed second byte for a four-byte lead. -/
def utf8Snd4 (b b2 : ℕ) : Bool :=
  if b = 240 then 144 ≤ b2 && b2 ≤ 191
  else if b = 244 then 128 ≤ b2 && b2 ≤ 143
  else utf8Cont b2

/-- `bytes.decode(errors="ignore")`: UTF-8 decoding dropping invalid
sequences (skipping one byte past an invalid lead / the valid prefix of a
truncated sequence, as CPython does). -/
def utf8DecodeIgnore : List ℕ → List Char
  | [] => []
  | b :: rest =>
    if b < 128 then Char.ofNat b :: utf8DecodeIgnore rest
    else if 194 ≤ b ∧ b ≤ 223 then
      match rest with
      | [] => []
      | b2 :: rest2 =>
        if utf8Cont b2 then
          Char.ofNat ((b - 192) * 64 + (b2 - 128)) :: utf8DecodeIgnore rest2
        else utf8DecodeIgnore (b2 :: rest2)
    else if 224 ≤ b ∧ b ≤ 239 then
      match rest with
      | [] => []
      | b2 :: rest2 =>
        if utf8Snd3 b b2 then
          match rest2 with
          | [] => []
          | b3 :: rest3 =>
            if utf8Cont b3 then
              Char.ofNat ((b - 224) * 4096 + (b2 - 128) * 64 + (b3 - 128)) ::
                utf8DecodeIgnore rest3
            else utf8DecodeIgnore (b3 :: rest3)
        else utf8DecodeIgnore (b2 :: rest2)
    else if 240 ≤ b ∧ b ≤ 244 then
      match rest with
      | [] => []
      | b2 :: rest2 =>
        if utf8Snd4 b b2 then
          match rest2 with
          | [] => []
          | b3 :: rest3 =>
            if utf8Cont b3 then
              match rest3 with
              | [] => []
              | b4 :: rest4 =>
                if utf8Cont b4 then
                  Char.ofNat ((b - 240) * 262144 + (b2 - 128) * 4096 +
                    (b3 - 128) * 64 + (b4 - 128)) :: utf8DecodeIgnore rest4
                else utf8DecodeIgnore (b4 :: rest4)
            else utf8DecodeIgnore (b3 :: rest3)
        else utf8DecodeIgnore (b2 :: rest2)
    else utf8DecodeIgnore rest

/-- `str.encode()`: UTF-8 encoding of one character. -/
def utf8EncodeChar (c : Char) : List ℕ :=
  let n := c.toNat
  if n < 128 then [n]
  else if n < 2048 then [192 + n / 64, 128 + n % 64]
  else if n < 65536 then [224 + n / 4096, 128 + (n / 64) % 64, 128 + n % 64]
  else [240 + n / 262144, 128 + (n / 4096) % 64, 128 + (n / 64) % 64, 128 + n % 64]

/-- `str.encode()` over a whole string. -/
def utf8Encode (s : Str) : List ℕ := s.flatMap utf8EncodeChar

/-- Hexadecimal digit value. -/
def hexVal (c : Char) : Option ℕ :=
  if '0' ≤ c ∧ c ≤ '9' then some (c.toNat - 48)
  else if 'a' ≤ c ∧ c ≤ 'f' then some (c.toNat - 87)
  else if 'A' ≤ c ∧ c ≤ 'F' then some (c.toNat - 55)
  else none

/-- The six ASCII whitespace characters `bytes.fromhex` skips. -/
def pyWs (c : Char) : Bool :=
  c == ' ' || c == '\t' || c == '\n' || c == '\x0b' || c == '\x0c' || c == '\r'

/-- `bytes.fromhex`: pairs of hex digits, with ASCII whitespace allowed
between pairs (but not inside a pair); anything else raises
(`none` here). -/
def fromHex : Str → Option (List ℕ)
  | [] => some []
  | c :: cs =>
    if pyWs c then fromHex cs
    else
      match hexVal c with
      | none => none
      | some hi =>
        match cs with
        | [] => none
        | c2 :: cs2 =>
          match hexVal c2 with
          | none => none
          | some lo => (fromHex cs2).map ((hi * 16 + lo) :: ·)

/-- Base64 alphabet value. -/
def b64Val (c : Char) : Option ℕ :=
  if 'A' ≤ c ∧ c ≤ 'Z' then some (c.toNat - 65)
  else if 'a' ≤ c ∧ c ≤ 'z' then some (c.toNat - 71)
  else if '0' ≤ c ∧ c ≤ '9' then some (c.toNat + 4)
  else if c = '+' then some 62
  else if c = '/' then some 63
  else none

/-- Decode complete base64 quadruples ('=' only as trailing padding). -/
def b64Groups : Str → Option (List ℕ)
  | [] => some []
  | a :: b :: c :: d :: rest =>
    match b64Val a, b64Val b with
    | some va, some vb =>
      if c = '=' then
        if d = '=' ∧ rest = [] then some [va * 4 + vb / 16] else none
      else
        match b64Val c with
        | some vc =>
          if d = '=' then
            if rest = [] then some [va * 4 + vb / 16, (vb % 16) * 16 + vc / 4] else none
          else
            match b64Val d with
            | some vd =>
              (b64Groups rest).map
                ([va * 4 + vb / 16, (vb % 16) * 16 + vc / 4, (vc % 4) * 64 + vd] ++ ·)
            | none => none
        | none => none
    | _, _ => none
  | _ => none

/-- Model of `base64.b64decode` (default `validate=False`): characters
outside the alphabet / padding are discarded, the retained length must be
a multiple of four (else `binascii.Error`), then quadruples are decoded.
Not exercised by any claim (the claims use the `"hex"` encoding). -/
def b64decode (s : Str) : Option (List ℕ) :=
  let cs := s.filter (fun c => (b64Val c).isSome || c == '=')
  if cs.length % 4 ≠ 0 then none else b64Groups cs

/-!
## XOR tools (`src/tools/xor.py`)
-/

/-- `_parse_data` of `src/tools/xor.py`: strict hex decoding, base64, or
raw UTF-8 encoding of the text.  A decode failure raises. -/
def parse_data (data : Str) (encoding : Str) : Except String (List ℕ) :=
  if encoding = "hex".data then
    match fromHex data with
    | some bs => .ok bs
    | none => .error "ValueError: non-hexadecimal number found in fromhex() arg"
  else if encoding = "b64".data then
    match b64decode data with
    | some bs => .ok bs
    | none => .error "binascii.Error: invalid base64-encoded string"
  else .ok (utf8Encode data)

/-- The single-byte XOR candidate for key `k`, before validation
(`try_key` of `src/tools/xor.py`). -/
def xorRaw (b : List ℕ) (k : ℕ) : BreakResult :=
  ⟨"XOR-single".data, utf8DecodeIgnore (b.map (Nat.xor · k)), some (natStr k),
    english_score (utf8DecodeIgnore (b.map (Nat.xor · k)))⟩

/-- `xor_single_break` of `src/tools/xor.py`: all 256 key bytes, scored,
sorted by confidence descending (stable), first `top_k`.  (The
`ThreadPoolExecutor` parallelism is semantically `map`: `executor.map`
preserves argument order.) -/
def xor_single_break (data encoding : Str) (topK : ℕ) :
    Except String (List BreakResult) := do
  let b ← parse_data data encoding
  let results ← mapE (fun k => mkBreakResult "XOR-single".data
    (utf8DecodeIgnore (b.map (Nat.xor · k))) (some (natStr k))
    (english_score (utf8DecodeIgnore (b.map (Nat.xor · k))))) (List.range 256)
  pure ((pySortDesc BreakResult.confidence results).take topK)

/-- Number of 1 bits: structural-fuel binary recursion
(`bin(byte).count("1")`). -/
def popCountAux : ℕ → ℕ → ℕ
  | 0, _ => 0
  | fuel + 1, n => if n = 0 then 0 else n % 2 + popCountAux fuel (n / 2)

/-- Number of 1 bits of `n`. -/
def popCount (n : ℕ) : ℕ := popCountAux n n

/-- The sum of per-byte bit differences (the body of `hamming_distance`,
defined on the zipped lists). -/
def hammingPop (a b : List ℕ) : ℕ :=
  ((a.zip b).map (fun p => popCount (p.1 ^^^ p.2))).sum

/-- `hamming_distance` of `src/utils/scoring.py`: `zip(..., strict=True)`
raises `ValueError` on length mismatch. -/
def hamming_distance (a b : List ℕ) : Except String ℕ :=
  if a.length = b.length then .ok (hammingPop a b)
  else .error "ValueError: zip() argument lengths differ"

/-- `_avg_norm_hamming` of `src/tools/xor.py` (`1e9` if fewer than two
complete blocks). -/
def avgNormHamming (b : List ℕ) (keySize : ℕ) : ℚ :=
  let chunks := (List.range 4).map (fun i => (b.drop (i * keySize)).take keySize)
  if chunks.length < 2 ∨ chunks.any (fun c => c.length ≠ keySize) then 1000000000
  else
    let dists := (List.range 3).map
      (fun i => (hammingPop (chunks.getD i []) (chunks.getD (i + 1) []) : ℚ) / keySize)
    dists.sum / dists.length

/-- Best single XOR key byte for one column: running maximum over all 256
keys with strict improvement, starting from score `-1.0`. -/
def bestXorKey (col : List ℕ) : ℕ :=
  ((List.range 256).foldl (fun best k =>
    let sc := english_score (utf8DecodeIgnore (col.map (Nat.xor · k)))
    if best.1 < sc then (sc, k) else best) ((-1 : ℚ), 0)).2

/-- `xor_repeating_break` of `src/tools/xor.py`. -/
def xor_repeating_break (data encoding : Str) (minKey maxKey : ℕ) :
    Except String BreakResult := do
  let b ← parse_data data encoding
  let candidates := (List.range' minKey (maxKey + 1 - minKey)).map
    (fun ks => (ks, avgNormHamming b ks))
  let best := ((pySortAsc (fun t => t.2) candidates).take 5).foldl
    (fun (acc : ℚ × Str × List ℕ) t =>
      let ks := t.1
      let key := (List.range ks).map
        (fun i => bestXorKey ((b.enum.filter (fun p => p.1 % ks == i)).map (·.2)))
      let pt := b.enum.map (fun p => Nat.xor p.2 (key.getD (p.1 % key.length) 0))
      let txt := utf8DecodeIgnore pt
      let sc := english_score txt
      if acc.1 < sc then (sc, txt, key) else acc) ((-1 : ℚ), [], [])
  mkBreakResult "XOR-repeating".data best.2.1 (some (utf8DecodeIgnore best.2.2)) best.1

/-!
## Integer factorization (`src/tools/number.py`)
-/

/-- `pow(a, d, n)`: fast modular exponentiation (fuel is the exponent,
which bounds the recursion depth `log₂ d`). -/
def powModAux : ℕ → ℕ → ℕ → ℕ → ℕ
  | 0, _, _, n => 1 % n
  | fuel + 1, a, d, n =>
    if d = 0 then 1 % n
    else
      let h := powModAux fuel (a * a % n) (d / 2) n
      if d % 2 = 1 then h * a % n else h

/-- `pow(a, d, n)`. -/
def powMod (a d n : ℕ) : ℕ := powModAux (d + 1) a d n

/-- Decompose `n` as `2^s * d` with `d` odd: returns `(d, s)` (the
`while d % 2 == 0` loop of `_is_probable_prime`). -/
def oddPartAux : ℕ → ℕ → ℕ × ℕ
  | 0, d => (d, 0)
  | fuel + 1, d =>
    if d % 2 = 0 ∧ d ≠ 0 then
      let (d', s) := oddPartAux fuel (d / 2)
      (d', s + 1)
    else (d, 0)

/-- The squaring loop of Miller–Rabin: does `x^(2^i)` hit `n - 1` within
`t` squarings? -/
def mrSquares : ℕ → ℕ → ℕ → Bool
  | 0, _, _ => false
  | t + 1, x, n =>
    let x' := x * x % n
    if x' = n - 1 then true else mrSquares t x' n

/-- One Miller–Rabin base: `true` iff base `a` does not witness
compositeness of `n`. -/
def mrBase (n d s a : ℕ) : Bool :=
  if a % n = 0 then true
  else
    let x := powMod a d n
    if x = 1 ∨ x = n - 1 then true else mrSquares (s - 1) x n

/-- `_is_probable_prime` of `src/tools/number.py`: small-prime test, then
Miller–Rabin with bases 2, 3, 5, 7, 11. -/
def isProbablePrime (n : ℕ) : Bool :=
  if n < 2 then false
  else
    match [2, 3, 5, 7, 11, 13, 17, 19, 23].find? (fun p => n % p == 0) with
    | some p => n == p
    | none =>
      let ds := oddPartAux n (n - 1)
      [2, 3, 5, 7, 11].all (mrBase n ds.1 ds.2)

/-- The `while n % f == 0` stripping loop: returns the number of times
`f` divides and the remaining cofactor.  (For `n = 0` the Python loop
diverges; the fuel is sufficient for every `n ≥ 1`, `f ≥ 2`.) -/
def stripAux : ℕ → ℕ → ℕ → ℕ × ℕ
  | 0, _, n => (0, n)
  | fuel + 1, f, n =>
    if n % f = 0 then
      let (c, n') := stripAux fuel f (n / f)
      (c + 1, n')
    else (0, n)

/-- The odd-factor loop of `_trial_division`: from the current factor `f`
(odd, stepping by 2, bounded by `f * f ≤ n` and `f ≤ 100000`), strip `f`,
then break early when the cofactor is a small probable prime.  The fuel
(`50001` from `f = 3`) always exceeds the at most 50000 candidate factor
values. -/
def tdLoop : ℕ → ℕ → ℕ → List ℕ → List ℕ × ℕ
  | 0, _, n, res => (res, n)
  | fuel + 1, f, n, res =>
    if f * f ≤ n ∧ f ≤ 100000 then
      let p := stripAux n f n
      let res' := res ++ List.replicate p.1 f
      let n' := p.2
      if 1 < n' ∧ n' < 1000000 ∧ isProbablePrime n' then (res', n')
      else tdLoop fuel (f + 2) n' res'
    else (res, n)

/-- `_trial_division` of `src/tools/number.py` (with its default
`limit = 100000`, the value used by `_factor_internal`). -/
def trialDivision (n : ℕ) : List ℕ :=
  let p2 := stripAux n 2 n
  let r := tdLoop 50001 3 p2.2 (List.replicate p2.1 2)
  if 1 < r.2 then r.1 ++ [r.2] else r.1

/-- `_factor_recursive` of `src/tools/number.py` uses `random.randrange`
(nondeterministic) inside an unbounded Pollard-rho loop.  It is provably
dead code: `_factor_internal` only calls it when `n // prod(td) > 1`, and
the product of `_trial_division`'s output always equals its input (theorem
`trialDivision_prod` below), so the quotient is `1`.  Modelled as the
degenerate singleton. -/
def factorRecursiveModel (m : ℕ) : List ℕ := [m]

/-- `_factor_internal` of `src/tools/number.py`. -/
def factorInternal (n : ℕ) : List ℕ :=
  let td := trialDivision n
  let rem := td.foldl (· * ·) 1
  let m := n / rem
  let res := if 1 < m then td ++ factorRecursiveModel m else td
  pySortAsc (fun x => x) res

/-- `factor_integer` of `src/tools/number.py` on the code path where the
external `yafu` binary is unavailable (`shutil.which` finds none, so
`_factor_with_yafu` returns `None` and the internal method is used). -/
def factor_integer (n : ℕ) : FactorResult :=
  ⟨natStr n, (factorInternal n).map natStr⟩

/-!
## Derived candidate enumerations and hex-payload predicates
-/

/-- The claim's literal notion of a valid hex payload: hex digits only,
an even number of them (spec wording: strict hex-pair decoding, rejecting
odd length or any non-hex character). -/
def specHexPairs (s : Str) : Bool :=
  s.all (fun c => (hexVal c).isSome) && s.length % 2 == 0

/-- The language `bytes.fromhex` actually accepts: hex-digit pairs with
ASCII whitespace allowed before, after and between pairs, but not inside
a pair.  The `Bool` state is `true` at a pair boundary. -/
def hexWFAux : Bool → Str → Bool
  | st, [] => st
  | true, c :: cs =>
    if pyWs c then hexWFAux true cs
    else if (hexVal c).isSome then hexWFAux false cs
    else false
  | false, c :: cs => if (hexVal c).isSome then hexWFAux true cs else false

/-- Whitespace-separated hex pairs. -/
def hexWF (s : Str) : Bool := hexWFAux true s

/-- The hex `ValueError` message constant. -/
def hexErrMsg : String := "ValueError: non-hexadecimal number found in fromhex() arg"

/-- The candidate of `transposition_break` for one permutation, before
validation. -/
def transRaw (ct : Str) (perm : List ℕ) : BreakResult :=
  ⟨"Transposition".data, columnar_transposition_decrypt ct perm, some (permKeyStr perm),
    english_score (columnar_transposition_decrypt ct perm)⟩

/-- The candidate list of `transposition_break`, in enumeration order. -/
def transCandidates (ct : Str) (maxKeyLen : ℕ) : List BreakResult :=
  (transKeys maxKeyLen).map (transRaw ct)

/-- The candidate list of `affine_break`, in enumeration order. -/
def affineCandidates (ct : Str) : List BreakResult :=
  affineKeys.map (affineRaw ct)

/-- The candidate list of `detect_encoding`, in battery order. -/
def detectCandidates (decoders : List Decoder) (text : Str) : List DetectionCandidate :=
  (detectRaw decoders text).map (fun t => ⟨t.1, t.2.1, some t.2.2⟩)

/-- The `BreakResult` built from one Vigenère candidate tuple. -/
def vigToResult (t : Str × ℚ × Str) : BreakResult :=
  ⟨"Vigenere".data, t.2.2, some t.1, t.2.1⟩

/-!
## Rail-fence fixture (claim C6)
-/

/-- The plaintext of the spec's rail-fence fixture. -/
def c6PT : Str := "WEAREDISCOVEREDFLEEATONCE".data

/-- The 3-rail zig-zag encoding of the fixture ("WECRLTEERDSOEEFEAOCAIVDEN"). -/
def c6CT : Str := railFenceEncrypt c6PT 3

/-- Abbreviation for a rail-fence break candidate. -/
def mkBR (pt : String) (key : Option Str) (c : ℚ) : BreakResult :=
  ⟨"RailFence".data, pt.data, key, c⟩

/-- The candidate list `railCandidates c6CT 21` (rail counts 2..21), fully
evaluated: plaintexts and english scores of every decryption of the fixture
ciphertext.  Certified against the program by `c6L_spec`. -/
def c6L : List BreakResult := [
  mkBR "WEEFCERALOTCEAEIRVDDSEONE" (some "2".data) ((919 : ℚ)/1000),
  mkBR "WEAREDISCOVEREDFLEEATONCE" (some "3".data) ((172 : ℚ)/175),
  mkBR "WTEVFEEEEDARCDOECSROANIEL" (some "4".data) ((949 : ℚ)/1000),
  mkBR "WLSADOOTEEECEAEECRFINVEDR" (some "5".data) ((931 : ℚ)/1000),
  mkBR "WRRECEAFDLETSEINVAOECEEOD" (some "6".data) ((118 : ℚ)/125),
  mkBR "WREOEAEIAERLETDEOVNDCFSEC" (some "7".data) ((937 : ℚ)/1000),
  mkBR "WCTROEAEIAEDERELESEOVNDCF" (some "8".data) ((364 : ℚ)/375),
  mkBR "WCTROFOIEVCEEDERELESEAADN" (some "9".data) ((1409 : ℚ)/1500),
  mkBR "WCTROFOIDNEVCEEDERELESEAA" (some "10".data) ((1409 : ℚ)/1500),
  mkBR "WCTROFACIDNEVAOEEDERELESE" (some "11".data) ((467 : ℚ)/500),
  mkBR "WCTRSEFACIDNEVAOEEODERELE" (some "12".data) ((2311 : ℚ)/2500),
  mkBR "WCLERSEFACIDNEVAOEEODETRE" (some "13".data) ((453 : ℚ)/500),
  mkBR "WECLERSEFACIDNEVAOEEODETR" (some "14".data) ((541 : ℚ)/625),
  mkBR "WECRLERSEFACIDNEVAOEEODET" (some "15".data) ((541 : ℚ)/625),
  mkBR "WECRLTERSEFACIDNEVAOEEODE" (some "16".data) ((907 : ℚ)/1000),
  mkBR "WECRLTEERSEFACIDNEVAOEEOD" (some "17".data) ((479 : ℚ)/500),
  mkBR "WECRLTEERDSEFACIDNEVAOEEO" (some "18".data) ((479 : ℚ)/500),
  mkBR "WECRLTEERDSOEFACIDNEVAOEE" (some "19".data) 1,
  mkBR "WECRLTEERDSOEEFACIDNEVAOE" (some "20".data) 1,
  mkBR "WECRLTEERDSOEEFEACIDNEVAO" (some "21".data) 1]

/-!
## Lemmas: stable sorting
-/

section SortLemmas

variable {β : Type} [LinearOrder β]

theorem insDesc_perm (key : α → β) (x : α) (l : List α) :
    List.Perm (insDesc key x l) (x :: l) := by
  induction l with
  | nil => rfl
  | cons y ys ih =>
    simp only [insDesc]
    split
    · rfl
    · exact (List.Perm.cons y ih).trans (List.Perm.swap x y ys)

theorem pySortDesc_perm (key : α → β) (l : List α) :
    List.Perm (pySortDesc key l) l := by
  induction l with
  | nil => rfl
  | cons x xs ih =>
    exact (insDesc_perm key x (pySortDesc key xs)).trans (ih.cons x)

theorem insDesc_pairwise (key : α → β) (x : α) (l : List α)
    (h : l.Pairwise (fun a b => key b ≤ key a)) :
    (insDesc key x l).Pairwise (fun a b => key b ≤ key a) := by
  induction l with
  | nil => simp [insDesc]
  | cons y ys ih =>
    simp only [insDesc]
    rcases h with - | ⟨hy, hys⟩
    split
    · refine List.Pairwise.cons ?_ (List.Pairwise.cons hy hys)
      intro b hb
      rcases List.mem_cons.mp hb with rfl | hb'
      · assumption
      · exact le_trans (hy b hb') (by assumption)
    · refine List.Pairwise.cons ?_ (ih hys)
      intro b hb
      rcases List.mem_cons.mp ((insDesc_perm key x ys).mem_iff.mp hb) with rfl | hb'
      · exact le_of_not_le (by assumption)
      · exact hy b hb'

theorem length_pySortDesc (key : α → β) (l : List α) :
    (pySortDesc key l).length = l.length :=
  (pySortDesc_perm key l).length_eq

theorem pySortDesc_sorted (key : α → β) (l : List α) :
    (pySortDesc key l).Pairwise (fun a b => key b ≤ key a) := by
  induction l with
  | nil => exact List.Pairwise.nil
  | cons x xs ih => exact insDesc_pairwise key x _ ih

theorem insDesc_filter_eq (key : α → β) (x : α) (l : List α) (c : β) :
    (insDesc key x l).filter (fun y => decide (key y = c)) =
      if key x = c then x :: l.filter (fun y => decide (key y = c))
      else l.filter (fun y => decide (key y = c)) := by
  induction l with
  | nil =>
    by_cases hx : key x = c <;> simp [insDesc, List.filter, hx]
  | cons y ys ih =>
    simp only [insDesc]
    by_cases hyx : key y ≤ key x
    · simp only [if_pos hyx]
      by_cases hx : key x = c
      · simp [List.filter, hx]
      · simp [List.filter, hx]
    · simp only [if_neg hyx]
      by_cases hy : key y = c
      · have hx : ¬ key x = c := by
          intro hx
          exact hyx (le_of_eq (hy.trans hx.symm))
        simp [List.filter, hy, hx, ih]
      · simp [List.filter, hy, ih]

/-- Stability of the Python sort: the elements of any fixed key keep
their original relative order (their sublist is unchanged). -/
theorem pySortDesc_filter_eq (key : α → β) (l : List α) (c : β) :
    (pySortDesc key l).filter (fun y => decide (key y = c)) =
      l.filter (fun y => decide (key y = c)) := by
  induction l with
  | nil => rfl
  | cons x xs ih =>
    show (insDesc key x (pySortDesc key xs)).filter _ = _
    rw [insDesc_filter_eq]
    by_cases hx : key x = c
    · simp [List.filter, hx, ih]
    · simp [List.filter, hx, ih]

theorem insAsc_perm (key : α → β) (x : α) (l : List α) :
    List.Perm (insAsc key x l) (x :: l) := by
  induction l with
  | nil => rfl
  | cons y ys ih =>
    simp only [insAsc]
    split
    · rfl
    · exact (List.Perm.cons y ih).trans (List.Perm.swap x y ys)

theorem pySortAsc_perm (key : α → β) (l : List α) :
    List.Perm (pySortAsc key l) l := by
  induction l with
  | nil => rfl
  | cons x xs ih =>
    exact (insAsc_perm key x (pySortAsc key xs)).trans (ih.cons x)

theorem insAsc_pairwise (key : α → β) (x : α) (l : List α)
    (h : l.Pairwise (fun a b => key a ≤ key b)) :
    (insAsc key x l).Pairwise (fun a b => key a ≤ key b) := by
  induction l with
  | nil => simp [insAsc]
  | cons y ys ih =>
    simp only [insAsc]
    rcases h with - | ⟨hy, hys⟩
    split
    · refine List.Pairwise.cons ?_ (List.Pairwise.cons hy hys)
      intro b hb
      rcases List.mem_cons.mp hb with rfl | hb'
      · assumption
      · exact le_trans (by assumption) (hy b hb')
    · refine List.Pairwise.cons ?_ (ih hys)
      intro b hb
      rcases List.mem_cons.mp ((insAsc_perm key x ys).mem_iff.mp hb) with rfl | hb'
      · exact le_of_not_le (by assumption)
      · exact hy b hb'

theorem pySortAsc_sorted (key : α → β) (l : List α) :
    (pySortAsc key l).Pairwise (fun a b => key a ≤ key b) := by
  induction l with
  | nil => exact List.Pairwise.nil
  | cons x xs ih => exact insAsc_pairwise key x _ ih

end SortLemmas

/-!
## Lemmas: fallible construction
-/

theorem mapE_ok_map {f : α → Except ε β} {g : α → β}
    (hfg : ∀ x y, f x = .ok y → y = g x) :
    ∀ {l : List α} {r : List β}, mapE f l = .ok r → r = l.map g := by
  intro l
  induction l with
  | nil => intro r h; cases h; rfl
  | cons x xs ih =>
    intro r h
    simp only [mapE] at h
    cases hfx : f x with
    | error e => rw [hfx] at h; cases h
    | ok y =>
      rw [hfx] at h
      cases hxs : mapE f xs with
      | error e => rw [hxs] at h; cases h
      | ok ys =>
        rw [hxs] at h
        cases h
        rw [List.map_cons, ← hfg x y hfx, ← ih hxs]

theorem mkBreakResult_ok {alg pt : Str} {key : Option Str} {conf : ℚ} {r : BreakResult}
    (h : mkBreakResult alg pt key conf = .ok r) : r = ⟨alg, pt, key, conf⟩ := by
  unfold mkBreakResult at h
  split at h
  · cases h; rfl
  · cases h

theorem mkDetectionCandidate_ok {name : Str} {sc : ℚ} {dec : Option Str}
    {r : DetectionCandidate} (h : mkDetectionCandidate name sc dec = .ok r) :
    r = ⟨name, sc, dec⟩ := by
  unfold mkDetectionCandidate at h
  split at h
  · cases h; rfl
  · cases h

/-- If every construction validates, `mapE` of the smart constructor
returns exactly the raw candidate list. -/
theorem mapE_mk_eq {f : α → Except ε β} {g : α → β}
    (hfg : ∀ x y, f x = .ok y → y = g x) {l : List α} {r : List β}
    (h : mapE f l = .ok r) : r = l.map g :=
  mapE_ok_map hfg h

/-!
## Lemmas: the plausibility scorer
-/

section ScorerLemmas

attribute [local semireducible] Rat.add Rat.mul Rat.sub Rat.inv

theorem letterFreq_nonneg {c : Char} {v : ℚ} (h : letterFreq c = some v) : 0 ≤ v := by
  unfold letterFreq at h
  cases hf : letterTable.find? (fun e => e.1 == c) with
  | none => rw [hf] at h; cases h
  | some e =>
    rw [hf] at h
    cases h
    have he := List.mem_of_find?_eq_some hf
    revert he
    have hall : ∀ e ∈ letterTable, 0 ≤ e.2 := by decide
    exact fun he => hall e he

theorem bigramFreq_nonneg {a b : Char} {v : ℚ} (h : bigramFreq a b = some v) : 0 ≤ v := by
  unfold bigramFreq at h
  cases hf : bigramTable.find? (fun e => e.1 == (a, b)) with
  | none => rw [hf] at h; cases h
  | some e =>
    rw [hf] at h
    cases h
    have he := List.mem_of_find?_eq_some hf
    revert he
    have hall : ∀ e ∈ bigramTable, 0 ≤ e.2 := by decide
    exact fun he => hall e he

theorem bigramHits_nonneg (l : List (Char × Char)) :
    0 ≤ (l.filterMap (fun p => bigramFreq p.1 p.2)).sum := by
  apply List.sum_nonneg
  intro x hx
  obtain ⟨p, -, hp⟩ := List.mem_filterMap.mp hx
  exact bigramFreq_nonneg hp

theorem english_score_nonneg (s : Str) : 0 ≤ english_score s := by
  unfold english_score
  dsimp only
  split
  · norm_num
  split
  · norm_num
  split
  · norm_num
  split
  · norm_num
  refine le_min (by norm_num) (add_nonneg (mul_nonneg (le_max_left 0 _) (by norm_num))
    (mul_nonneg ?_ (by norm_num)))
  split
  · refine div_nonneg (le_min (by norm_num) (div_nonneg (bigramHits_nonneg _) ?_)) (by norm_num)
    positivity
  · exact le_refl 0

theorem english_score_le_one {s : Str} (h : flagMatch s = false) :
    english_score s ≤ 1 := by
  unfold english_score
  dsimp only
  split
  · norm_num
  split
  · simp_all
  split
  · norm_num
  split
  · norm_num
  exact min_le_left 1 _

theorem english_score_mem_unit {s : Str} (h : flagMatch s = false) :
    0 ≤ english_score s ∧ english_score s ≤ 1 :=
  ⟨english_score_nonneg s, english_score_le_one h⟩

end ScorerLemmas

theorem english_score_of_flag {s : Str} (h : flagMatch s = true) :
    english_score s = 10 := by
  unfold english_score
  have hne : ¬ s = [] := by
    intro he
    rw [he] at h
    simp [flagMatch] at h
  rw [if_neg hne, if_pos h]

/-!
## Lemmas: the flag pattern
-/

theorem charToNat_ofNat {n : ℕ} (h : n < 55296) : (Char.ofNat n).toNat = n := by
  have hv : n.isValidChar := Or.inl h
  rw [Char.ofNat, dif_pos hv]
  rfl

theorem charLe_iff_toNat {a b : Char} : a ≤ b ↔ a.toNat ≤ b.toNat := by
  rw [Char.le_def]
  exact Iff.rfl

theorem lowerChar_eq_braceL {c : Char} (h : lowerChar c = braceL) : c = braceL := by
  unfold lowerChar at h
  split at h
  · exfalso
    rename_i hc
    have hz : c.toNat ≤ 90 := charLe_iff_toNat.mp hc.2
    have hv : (Char.ofNat (c.toNat + 32)).toNat = c.toNat + 32 :=
      charToNat_ofNat (by omega)
    rw [h] at hv
    have hb : braceL.toNat = 123 := by decide
    omega
  · exact h

theorem stripCI_braceL_mem : ∀ (w s r : Str),
    stripCI (w ++ [braceL]) s = some r → braceL ∈ s := by
  intro w
  induction w with
  | nil =>
    intro s r h
    cases s with
    | nil => simp [stripCI] at h
    | cons c cs =>
      simp only [List.nil_append, stripCI] at h
      split at h
      · have : c = braceL := lowerChar_eq_braceL (by assumption)
        exact this ▸ List.mem_cons_self c cs
      · cases h
  | cons wc ws ih =>
    intro s r h
    cases s with
    | nil => simp [stripCI] at h
    | cons c cs =>
      simp only [List.cons_append, stripCI] at h
      split at h
      · exact List.mem_cons_of_mem c (ih cs r h)
      · cases h

theorem flagHere_braceL_mem {s : Str} (h : flagHere s = true) : braceL ∈ s := by
  unfold flagHere at h
  obtain ⟨w, -, hw⟩ := List.any_eq_true.mp h
  cases hst : stripCI (w ++ [braceL]) s with
  | none => rw [hst] at hw; cases hw
  | some r => exact stripCI_braceL_mem w s r hst

theorem flagMatch_braceL_mem : ∀ {s : Str}, flagMatch s = true → braceL ∈ s := by
  intro s
  induction s with
  | nil => intro h; cases h
  | cons c cs ih =>
    intro h
    rw [flagMatch] at h
    rcases Bool.or_eq_true_iff.mp h with h1 | h2
    · exact flagHere_braceL_mem h1
    · exact List.mem_cons_of_mem c (ih h2)

theorem flagMatch_of_no_braceL {s : Str} (h : braceL ∉ s) : flagMatch s = false := by
  cases hf : flagMatch s with
  | false => rfl
  | true => exact absurd (flagMatch_braceL_mem hf) h

/-!
## Claim theorems C1, C2, C10
-/

section ClaimsScorer

attribute [local semireducible] Rat.add Rat.mul Rat.sub Rat.inv

/-- C1.  The spec promises that every cracking tool returns a structured
result without raising, *including* when a candidate plaintext matches the
flag marker pattern and receives the sentinel score.  The code violates
this: `english_score` returns the sentinel `10.0` for a flag-like
plaintext, and the pydantic model `BreakResult` (`Field(ge=0, le=1)`)
rejects it, so the tool raises `ValidationError`.  Failing input:
`rot_all("gmbh{b}", top_k=1)` — its ROT-1 candidate is `flag{a}`.  This
theorem evaluates the embedded code at the failing input. -/
theorem C1_sentinel_raises :
    rot_all ("gmbh".data ++ [braceL] ++ "b".data ++ [braceR]) 1 =
      .error validationError ∧
    english_score ("flag".data ++ [braceL] ++ "a".data ++ [braceR]) = 10 := by
  constructor
  · rfl
  · decide

/-- C2.  The contract of `english_score`: the empty string scores `0`;
any string matching the case-insensitive marker pattern
`(flag|ctf|key|secret)\{...\}` scores the sentinel `10.0` immediately;
any non-empty non-matching string whose fraction of printable characters
is below `0.7` scores `0`; and in every other (non-marker) case the
result lies in `[0, 1]`. -/
theorem C2_english_score_contract :
    english_score [] = 0
    ∧ (∀ s : Str, flagMatch s = true → english_score s = 10)
    ∧ (∀ s : Str, s ≠ [] → flagMatch s = false →
        ((s.filter pyPrintable).length : ℚ) / s.length < 7/10 → english_score s = 0)
    ∧ (∀ s : Str, flagMatch s = false →
        0 ≤ english_score s ∧ english_score s ≤ 1) := by
  refine ⟨rfl, fun s h => english_score_of_flag h, ?_, fun s h => english_score_mem_unit h⟩
  intro s hne hflag hlt
  unfold english_score
  dsimp only
  rw [if_neg hne, if_neg (by simp [hflag]), if_pos hlt]

/-- Witness for C2 at concrete inputs: `"flag{a}"` matches the marker and
scores `10`; `"a\x01\x01\x01"` is below the printable threshold and
scores `0`; `"ab"` scores inside `[0, 1]`. -/
theorem C2_witness :
    (flagMatch ("flag".data ++ [braceL] ++ "a".data ++ [braceR]) = true ∧
      english_score ("flag".data ++ [braceL] ++ "a".data ++ [braceR]) = 10)
    ∧ ("a\x01\x01\x01".data ≠ [] ∧ flagMatch "a\x01\x01\x01".data = false ∧
        (("a\x01\x01\x01".data.filter pyPrintable).length : ℚ) /
          "a\x01\x01\x01".data.length < 7/10 ∧
        english_score "a\x01\x01\x01".data = 0)
    ∧ (flagMatch "ab".data = false ∧
        0 ≤ english_score "ab".data ∧ english_score "ab".data ≤ 1) := by
  refine ⟨⟨by decide, C2_english_score_contract.2.1 _ (by decide)⟩,
    ⟨by decide, by decide, by decide,
      C2_english_score_contract.2.2.1 _ (by decide) (by decide) (by decide)⟩,
    ⟨by decide, C2_english_score_contract.2.2.2 _ (by decide)⟩⟩

/-- C10.  In addition to the printable-fraction threshold, `english_score`
returns `0` for every non-empty non-marker string in which fewer than
half of the characters are alphabetic — even when all characters are
printable. -/
theorem C10_alpha_rejection :
    ∀ s : Str, s ≠ [] → flagMatch s = false →
      ((s.filter pyAlpha).length : ℚ) / s.length < 1/2 → english_score s = 0 := by
  intro s hne hflag hlt
  unfold english_score
  dsimp only
  rw [if_neg hne, if_neg (by simp [hflag])]
  by_cases hp : ((s.filter pyPrintable).length : ℚ) / s.length < 7/10
  · rw [if_pos hp]
  · rw [if_neg hp, if_pos hlt]

/-- Witness for C10: `"12345a"` is all-printable, has only one alphabetic
character out of six, and scores `0`. -/
theorem C10_witness :
    "12345a".data ≠ [] ∧ flagMatch "12345a".data = false ∧
    (("12345a".data.filter pyAlpha).length : ℚ) / "12345a".data.length < 1/2 ∧
    ("12345a".data.filter pyPrintable).length = "12345a".data.length ∧
    english_score "12345a".data = 0 := by
  refine ⟨by decide, by decide, by decide, by decide,
    C10_alpha_rejection _ (by decide) (by decide) (by decide)⟩

end ClaimsScorer

/-!
## Claim C9: Hamming distance
-/

theorem popCountAux_fuel_irrel :
    ∀ fuel₁ fuel₂ n, n ≤ fuel₁ → n ≤ fuel₂ →
      popCountAux fuel₁ n = popCountAux fuel₂ n := by
  intro fuel₁
  induction fuel₁ with
  | zero =>
    intro fuel₂ n h1 _
    interval_cases n
    cases fuel₂ <;> simp [popCountAux]
  | succ f ih =>
    intro fuel₂ n h1 h2
    by_cases hn : n = 0
    · subst hn
      cases fuel₂ <;> simp [popCountAux]
    · have hn1 : 1 ≤ n := Nat.one_le_iff_ne_zero.mpr hn
      obtain ⟨f₂, rfl⟩ : ∃ m, fuel₂ = m + 1 := ⟨fuel₂ - 1, by omega⟩
      simp only [popCountAux, if_neg hn]
      have hd : n / 2 ≤ f := by omega
      have hd₂ : n / 2 ≤ f₂ := by omega
      rw [ih f₂ (n / 2) hd hd₂]

theorem popCount_zero : popCount 0 = 0 := rfl

theorem popCount_of_pos {n : ℕ} (h : 0 < n) :
    popCount n = n % 2 + popCount (n / 2) := by
  unfold popCount
  obtain ⟨m, rfl⟩ : ∃ m, n = m + 1 := ⟨n - 1, by omega⟩
  simp only [popCountAux, if_neg (by omega : ¬ m + 1 = 0)]
  rw [popCountAux_fuel_irrel m ((m + 1) / 2) ((m + 1) / 2) (by omega) (le_refl _)]

/-- `popCount` counts the set bits below any sufficient width. -/
theorem popCount_eq_countP :
    ∀ (k n : ℕ), n < 2 ^ k →
      popCount n = (List.range k).countP (fun i => n.testBit i) := by
  intro k
  induction k with
  | zero =>
    intro n hn
    interval_cases n
    simp [popCount_zero]
  | succ k ih =>
    intro n hn
    by_cases hn0 : n = 0
    · subst hn0
      simp [popCount_zero, Nat.zero_testBit]
    · rw [popCount_of_pos (Nat.pos_of_ne_zero hn0)]
      rw [List.range_succ_eq_map]
      rw [List.countP_cons, List.countP_map]
      have hhalf : n / 2 < 2 ^ k := by
        rw [pow_succ] at hn
        omega
      rw [ih (n / 2) hhalf]
      have hbit : ∀ i, n.testBit (i + 1) = (n / 2).testBit i := by
        intro i
        rw [Nat.testBit_add_one]
      have hcnt : (List.range k).countP ((fun i => n.testBit i) ∘ Nat.succ) =
          (List.range k).countP (fun i => (n / 2).testBit i) := by
        apply List.countP_congr
        intro i _
        simp [Function.comp, hbit]
      rw [hcnt, Nat.testBit_zero]
      by_cases hpar : n % 2 = 1
      · simp [hpar]
        omega
      · have : n % 2 = 0 := by omega
        simp [this]

/-- C9.  `hamming_distance` on equal-length byte strings equals the total
number of bit positions (0..7 per byte) where the two sides differ; the
classic fixture evaluates to 37; and the distance of any byte string to
itself is 0.  Unequal lengths raise (`zip(strict=True)`), which the first
part's hypothesis excludes. -/
theorem C9_hamming_distance :
    (∀ a b : List ℕ, a.length = b.length →
      (∀ x ∈ a, x < 256) → (∀ x ∈ b, x < 256) →
      hamming_distance a b = .ok (((a.zip b).map (fun p =>
        (List.range 8).countP (fun i => p.1.testBit i != p.2.testBit i))).sum))
    ∧ hamming_distance ("this is a test".data.map Char.toNat)
        ("wokka wokka!!!".data.map Char.toNat) = .ok 37
    ∧ (∀ x : List ℕ, hamming_distance x x = .ok 0) := by
  refine ⟨?_, by decide, ?_⟩
  · intro a b hlen ha hb
    unfold hamming_distance
    rw [if_pos hlen]
    congr 1
    unfold hammingPop
    congr 1
    apply List.map_congr_left
    intro p hp
    obtain ⟨hpa, hpb⟩ := List.of_mem_zip hp
    have hxor : p.1 ^^^ p.2 < 2 ^ 8 :=
      Nat.xor_lt_two_pow (ha p.1 hpa) (hb p.2 hpb)
    rw [popCount_eq_countP 8 _ hxor]
    apply List.countP_congr
    intro i _
    rw [Nat.testBit_xor]
  · intro x
    unfold hamming_distance
    rw [if_pos rfl]
    have hz : hammingPop x x = 0 := by
      unfold hammingPop
      induction x with
      | nil => rfl
      | cons y ys ih =>
        simp only [List.zip_cons_cons, List.map_cons, List.sum_cons]
        rw [ih]
        simp [popCount_zero]
    rw [hz]

/-- Witness for C9's first part at a concrete pair of bytes. -/
theorem C9_witness :
    ([1, 7] : List ℕ).length = ([3, 0] : List ℕ).length ∧
    hamming_distance [1, 7] [3, 0] = .ok
      ((([(1, 3), (7, 0)] : List (ℕ × ℕ)).map (fun p =>
        (List.range 8).countP (fun i => p.1.testBit i != p.2.testBit i))).sum) :=
  ⟨rfl, C9_hamming_distance.1 [1, 7] [3, 0] rfl (by decide) (by decide)⟩

/-!
## Claims C7 and C8: XOR tools
-/




theorem pyWs_hexVal {c : Char} (h : pyWs c = true) : hexVal c = none := by
  unfold pyWs at h
  simp only [Bool.or_eq_true, beq_iff_eq] at h
  rcases h with ((((rfl | rfl) | rfl) | rfl) | rfl) | rfl <;> decide

theorem fromHex_isSome_aux :
    ∀ (n : ℕ) (s : Str), s.length ≤ n → (fromHex s).isSome = hexWF s := by
  intro n
  induction n with
  | zero =>
    intro s hs
    have : s = [] := List.eq_nil_of_length_eq_zero (by omega)
    subst this
    rfl
  | succ n ih =>
    intro s hs
    cases s with
    | nil => rfl
    | cons c cs =>
      unfold fromHex hexWF hexWFAux
      by_cases hws : pyWs c
      · rw [if_pos hws, if_pos hws]
        exact ih cs (by simp at hs; omega)
      · rw [if_neg hws, if_neg hws]
        cases hv : hexVal c with
        | none => simp [hv]
        | some hi =>
          simp only [hv, Option.isSome_some, if_pos]
          cases cs with
          | nil => rfl
          | cons c2 cs2 =>
            cases hv2 : hexVal c2 with
            | none => simp [hexWFAux, hv2]
            | some lo =>
              simp only [hexWFAux, hv2, Option.isSome_map, Option.isSome_some, if_true]
              have hlen : cs2.length ≤ n := by simp at hs; omega
              simpa [hexWF] using ih cs2 hlen

theorem fromHex_isSome (s : Str) : (fromHex s).isSome = hexWF s :=
  fromHex_isSome_aux s.length s (le_refl _)

theorem specHexPairs_hexWF_aux :
    ∀ (n : ℕ) (s : Str), s.length ≤ n → specHexPairs s = true → hexWF s = true := by
  intro n
  induction n with
  | zero =>
    intro s hs _
    have : s = [] := List.eq_nil_of_length_eq_zero (by omega)
    subst this
    rfl
  | succ n ih =>
    intro s hs hsp
    cases s with
    | nil => rfl
    | cons c cs =>
      unfold specHexPairs at hsp
      simp only [Bool.and_eq_true, List.all_cons, beq_iff_eq] at hsp
      obtain ⟨⟨hc, hcs⟩, hlen⟩ := hsp
      cases cs with
      | nil => simp at hlen
      | cons c2 cs2 =>
        simp only [List.all_cons, Bool.and_eq_true] at hcs
        obtain ⟨hc2, hcs2⟩ := hcs
        unfold hexWF hexWFAux
        rw [if_neg, if_pos hc]
        · show hexWFAux false (c2 :: cs2) = true
          unfold hexWFAux
          rw [if_pos hc2]
          apply ih cs2 (by simp at hs; omega)
          unfold specHexPairs
          simp only [Bool.and_eq_true, beq_iff_eq]
          refine ⟨hcs2, ?_⟩
          simp only [List.length_cons] at hlen ⊢
          omega
        · intro hws
          rw [pyWs_hexVal hws] at hc
          cases hc

theorem specHexPairs_hexWF (s : Str) (h : specHexPairs s = true) : hexWF s = true :=
  specHexPairs_hexWF_aux s.length s (le_refl _) h


theorem parse_data_hex_error {data : Str} (h : fromHex data = none) :
    parse_data data "hex".data = .error hexErrMsg := by
  unfold parse_data
  rw [if_pos rfl, h]
  rfl

/-- C7 (amended).  What the `"hex"` decoding of `xor_single_break` /
`xor_repeating_break` accepts is exactly whitespace-separated hex pairs
(`bytes.fromhex` skips ASCII whitespace between pairs); every other input
— odd number of hex digits, a non-hex non-whitespace character, or
whitespace splitting a pair — raises a `ValueError` that propagates out
of both tools, which is never silently replaced by empty bytes.  Every
payload that is valid in the claim's stricter sense (hex digits only,
even count) is accepted. -/
theorem C7_hex_error_handling :
    (∀ data : Str, (fromHex data).isSome = hexWF data)
    ∧ (∀ (data : Str) (topK : ℕ), fromHex data = none →
        xor_single_break data "hex".data topK = .error hexErrMsg)
    ∧ (∀ (data : Str) (minKey maxKey : ℕ), fromHex data = none →
        xor_repeating_break data "hex".data minKey maxKey = .error hexErrMsg)
    ∧ (∀ data : Str, specHexPairs data = true → hexWF data = true) := by
  refine ⟨fromHex_isSome, ?_, ?_, specHexPairs_hexWF⟩
  · intro data topK h
    unfold xor_single_break
    rw [parse_data_hex_error h]
    rfl
  · intro data minKey maxKey h
    unfold xor_repeating_break
    rw [parse_data_hex_error h]
    rfl

/-- Witness for C7 at concrete inputs: `"gg"` (non-hex characters) and
`"a"` (odd length) both raise through both tools. -/
theorem C7_witness :
    fromHex "gg".data = none ∧
    xor_single_break "gg".data "hex".data 1 = .error hexErrMsg ∧
    fromHex "a".data = none ∧
    xor_repeating_break "a".data "hex".data 2 40 = .error hexErrMsg :=
  ⟨by decide, C7_hex_error_handling.2.1 "gg".data 1 (by decide),
    by decide, C7_hex_error_handling.2.2.1 "a".data 2 40 (by decide)⟩

section C8Eval

attribute [local semireducible] Rat.add Rat.mul Rat.sub Rat.inv

set_option maxRecDepth 20000

/-- C7 (counterexample to the claim as stated).  `"48 65"` contains a
character that is not a hex digit (the space), so by the claim both tools
must signal a decode error; in fact `bytes.fromhex` skips the whitespace
and `xor_single_break` succeeds. -/
theorem C7_counterexample :
    specHexPairs "48 65".data = false ∧
    fromHex "48 65".data = some [72, 101] ∧
    (xor_single_break "48 65".data "hex".data 1).isOk = true := by
  refine ⟨by decide, by decide, by decide⟩

/-- C8 (counterexample).  The spec's fixture is wrong: the data is five
bytes, so no candidate plaintext can equal the eleven-character
`"hello world"`; the actual best candidate is `"zliin"`. -/
theorem C8_counterexample :
    (xor_single_break "3f292c2c2b".data "hex".data 1).map
      (fun l => l.map BreakResult.plaintext) = .ok ["zliin".data]
    ∧ "zliin".data.map lowerChar ≠ "hello world".data := by
  constructor
  · decide
  · decide

/-- C8 (amended).  `xor_single_break("3f292c2c2b", "hex", top_k=1)`
returns exactly one candidate: key byte `69` (`0x45`), plaintext
`"zliin"` (which is not case-insensitively `"hello world"`), confidence
`3197/3875`. -/
theorem C8_xor_single_value :
    xor_single_break "3f292c2c2b".data "hex".data 1 =
      .ok [⟨"XOR-single".data, "zliin".data, some "69".data, 3197/3875⟩] := by
  decide

end C8Eval

/-!
## Claims C3 and C4: ranking and the shift enumerator
-/

/-- Destructure the common tool pipeline `validate → sort → take`. -/
theorem bindSortTake_ok {γ δ : Type} {β : Type} [LinearOrder β] {key : δ → β}
    {f : γ → Except String δ} {enum : List γ} {K : ℕ} {res : List δ}
    (h : (mapE f enum >>= fun results => pure ((pySortDesc key results).take K)) =
      Except.ok res) :
    ∃ l, mapE f enum = .ok l ∧ res = (pySortDesc key l).take K := by
  cases hm : mapE f enum with
  | error e =>
    rw [hm] at h
    cases h
  | ok l =>
    rw [hm] at h
    refine ⟨l, rfl, ?_⟩
    simp only [bind, Except.bind, pure, Except.pure, Except.ok.injEq] at h
    exact h.symm

/-- Sortedness and stability of `take K (pySortDesc key cands)`. -/
theorem sortTake_spec {β : Type} [LinearOrder β] (key : α → β) (cands : List α) (K : ℕ) :
    ((pySortDesc key cands).take K).Pairwise (fun a b => key b ≤ key a) ∧
    ∀ c : β, ((pySortDesc key cands).take K).filter (fun y => decide (key y = c)) <+:
      cands.filter (fun y => decide (key y = c)) := by
  constructor
  · exact (pySortDesc_sorted key cands).sublist (List.take_sublist K _)
  · intro c
    have hpre := (List.take_prefix K (pySortDesc key cands)).filter
      (fun y => decide (key y = c))
    rwa [pySortDesc_filter_eq] at hpre






/-- C3.  Every enumerator returns its candidates sorted by non-increasing
confidence, and candidates of equal confidence appear in enumeration
order (the filtered subsequence at any fixed confidence is an unchanged
prefix of the enumerated one — a prefix and not the whole list only
because of the `top_k` truncation). -/
theorem C3_enumerators_ranking :
    (∀ (text : Str) (K : ℕ) (res : List BreakResult), rot_all text K = .ok res →
      res.Pairwise (fun a b => b.confidence ≤ a.confidence) ∧
      ∀ c : ℚ, res.filter (fun r => decide (r.confidence = c)) <+:
        (rotCandidates text).filter (fun r => decide (r.confidence = c)))
    ∧ (∀ (ct : Str) (K : ℕ) (res : List BreakResult), affine_break ct K = .ok res →
      res.Pairwise (fun a b => b.confidence ≤ a.confidence) ∧
      ∀ c : ℚ, res.filter (fun r => decide (r.confidence = c)) <+:
        (affineCandidates ct).filter (fun r => decide (r.confidence = c)))
    ∧ (∀ (ct : Str) (M K : ℕ) (res : List BreakResult), rail_fence_break ct M K = .ok res →
      res.Pairwise (fun a b => b.confidence ≤ a.confidence) ∧
      ∀ c : ℚ, res.filter (fun r => decide (r.confidence = c)) <+:
        (railCandidates ct M).filter (fun r => decide (r.confidence = c)))
    ∧ (∀ (ct : Str) (M K : ℕ) (res : List BreakResult), transposition_break ct M K = .ok res →
      res.Pairwise (fun a b => b.confidence ≤ a.confidence) ∧
      ∀ c : ℚ, res.filter (fun r => decide (r.confidence = c)) <+:
        (transCandidates ct M).filter (fun r => decide (r.confidence = c)))
    ∧ (∀ (ct : Str) (M K : ℕ) (res : List BreakResult), vigenere_break ct M K = .ok res →
      res.Pairwise (fun a b => b.confidence ≤ a.confidence) ∧
      ∀ c : ℚ, res.filter (fun r => decide (r.confidence = c)) <+:
        ((vigCandidates ct M).filter (fun t => decide (t.2.1 = c))).map vigToResult)
    ∧ (∀ (decoders : List Decoder) (text : Str) (K : ℕ) (res : List DetectionCandidate),
        detect_encoding decoders text K = .ok res →
      res.Pairwise (fun a b => b.score ≤ a.score) ∧
      ∀ c : ℚ, res.filter (fun r => decide (r.score = c)) <+:
        (detectCandidates decoders text).filter (fun r => decide (r.score = c))) := by
  refine ⟨?_, ?_, ?_, ?_, ?_, ?_⟩
  · intro text K res h
    unfold rot_all at h
    obtain ⟨l, hl, rfl⟩ := bindSortTake_ok h
    have hraw : l = (List.range' 1 25).map (rotRaw text) :=
      mapE_ok_map (fun k y hy => by
        rw [mkBreakResult_ok hy]
        rfl) hl
    rw [hraw]
    exact sortTake_spec BreakResult.confidence (rotCandidates text) K
  · intro ct K res h
    unfold affine_break at h
    obtain ⟨l, hl, rfl⟩ := bindSortTake_ok h
    have hraw : l = affineKeys.map (affineRaw ct) :=
      mapE_ok_map (fun t y hy => by
        rw [mkBreakResult_ok hy]
        rfl) hl
    rw [hraw]
    exact sortTake_spec BreakResult.confidence (affineCandidates ct) K
  · intro ct M K res h
    unfold rail_fence_break at h
    obtain ⟨l, hl, rfl⟩ := bindSortTake_ok h
    have hraw : l = (List.range' 2 (M - 1)).map (fun rails =>
        (⟨"RailFence".data, rail_fence_decrypt ct rails, some (natStr rails),
          english_score (rail_fence_decrypt ct rails)⟩ : BreakResult)) :=
      mapE_ok_map (fun rails y hy => by
        rw [mkBreakResult_ok hy]) hl
    rw [hraw]
    exact sortTake_spec BreakResult.confidence (railCandidates ct M) K
  · intro ct M K res h
    unfold transposition_break at h
    obtain ⟨l, hl, rfl⟩ := bindSortTake_ok h
    have hraw : l = (transKeys M).map (transRaw ct) :=
      mapE_ok_map (fun perm y hy => by
        rw [mkBreakResult_ok hy]
        rfl) hl
    rw [hraw]
    exact sortTake_spec BreakResult.confidence (transCandidates ct M) K
  · intro ct M K res h
    unfold vigenere_break at h
    have hres : res = ((pySortDesc (fun t => t.2.1) (vigCandidates ct M)).take K).map
        vigToResult :=
      mapE_ok_map (fun t y hy => by
        rw [mkBreakResult_ok hy]
        rfl) h
    subst hres
    constructor
    · rw [List.pairwise_map]
      exact ((pySortDesc_sorted (fun t => t.2.1) (vigCandidates ct M)).sublist
        (List.take_sublist K _))
    · intro c
      rw [List.filter_map]
      apply List.IsPrefix.map
      have hpre := (List.take_prefix K (pySortDesc (fun t => t.2.1)
        (vigCandidates ct M))).filter (fun t => decide (t.2.1 = c))
      rwa [pySortDesc_filter_eq] at hpre
  · intro decoders text K res h
    unfold detect_encoding at h
    obtain ⟨l, hl, rfl⟩ := bindSortTake_ok h
    have hraw : l = (detectRaw decoders text).map (fun t =>
        (⟨t.1, t.2.1, some t.2.2⟩ : DetectionCandidate)) :=
      mapE_ok_map (fun t y hy => by
        rw [mkDetectionCandidate_ok hy]) hl
    rw [hraw]
    exact sortTake_spec DetectionCandidate.score (detectCandidates decoders text) K

section C3C4Witness

attribute [local semireducible] Rat.add Rat.mul Rat.sub Rat.inv

set_option maxRecDepth 20000

/-- Witness for C3: each enumerator applied to a concrete input. -/
theorem C3_witness :
    (rot_all [] 1 = .ok [⟨"ROT1".data, [], some "1".data, 0⟩] ∧
      ([⟨"ROT1".data, [], some "1".data, 0⟩] : List BreakResult).Pairwise
        (fun a b => b.confidence ≤ a.confidence))
    ∧ (affine_break [] 1 = .ok [⟨"Affine".data, [], some "a=1,b=0".data, 0⟩] ∧
      ([⟨"Affine".data, [], some "a=1,b=0".data, 0⟩] : List BreakResult).Pairwise
        (fun a b => b.confidence ≤ a.confidence))
    ∧ (rail_fence_break [] 2 1 = .ok [⟨"RailFence".data, [], some "2".data, 0⟩])
    ∧ (transposition_break [] 2 1 = .ok [⟨"Transposition".data, [], some "0-1".data, 0⟩])
    ∧ (vigenere_break [] 2 1 = .ok [⟨"Vigenere".data, [], some "AA".data, 0⟩] ∧
      ∀ c : ℚ, ([⟨"Vigenere".data, [], some "AA".data, 0⟩] : List BreakResult).filter
          (fun r => decide (r.confidence = c)) <+:
        ((vigCandidates [] 2).filter (fun t => decide (t.2.1 = c))).map vigToResult)
    ∧ (detect_encoding [] [] 1 = .ok []) := by
  refine ⟨⟨?_, ?_⟩, ⟨?_, ?_⟩, ?_, ?_, ⟨?_, ?_⟩, ?_⟩
  · decide
  · exact (C3_enumerators_ranking.1 [] 1 _ (by decide)).1
  · decide
  · exact (C3_enumerators_ranking.2.1 [] 1 _ (by decide)).1
  · decide
  · decide
  · decide
  · exact (C3_enumerators_ranking.2.2.2.2.1 [] 2 1 _ (by decide)).2
  · decide

end C3C4Witness

theorem shiftChar_upper {c : Char} (hc : 'A' ≤ c ∧ c ≤ 'Z') (k : ℕ) :
    'A' ≤ shiftChar c k ∧ shiftChar c k ≤ 'Z' ∧
    ((shiftChar c k).toNat : ℤ) ≡ (c.toNat : ℤ) - k [ZMOD 26] := by
  have hA : ('A').toNat = 65 := by decide
  have hZ : ('Z').toNat = 90 := by decide
  have h65 : 65 ≤ c.toNat := hA ▸ charLe_iff_toNat.mp hc.1
  have h90 : c.toNat ≤ 90 := hZ ▸ charLe_iff_toNat.mp hc.2
  unfold shiftChar
  rw [if_pos hc]
  have hmlt : (c.toNat - 65 + (26 - k % 26)) % 26 < 26 := Nat.mod_lt _ (by norm_num)
  have ht : (Char.ofNat ((c.toNat - 65 + (26 - k % 26)) % 26 + 65)).toNat =
      (c.toNat - 65 + (26 - k % 26)) % 26 + 65 := charToNat_ofNat (by omega)
  have hk : k % 26 < 26 := Nat.mod_lt _ (by norm_num)
  refine ⟨?_, ?_, ?_⟩
  · rw [charLe_iff_toNat, hA, ht]
    omega
  · rw [charLe_iff_toNat, hZ, ht]
    omega
  · show ((Char.ofNat ((c.toNat - 65 + (26 - k % 26)) % 26 + 65)).toNat : ℤ) % 26 =
      ((c.toNat : ℤ) - k) % 26
    rw [ht]
    omega

theorem shiftChar_lower {c : Char} (hc : 'a' ≤ c ∧ c ≤ 'z') (k : ℕ) :
    'a' ≤ shiftChar c k ∧ shiftChar c k ≤ 'z' ∧
    ((shiftChar c k).toNat : ℤ) ≡ (c.toNat : ℤ) - k [ZMOD 26] := by
  have ha : ('a').toNat = 97 := by decide
  have hz : ('z').toNat = 122 := by decide
  have hA : ('A').toNat = 65 := by decide
  have hZ : ('Z').toNat = 90 := by decide
  have h97 : 97 ≤ c.toNat := ha ▸ charLe_iff_toNat.mp hc.1
  have h122 : c.toNat ≤ 122 := hz ▸ charLe_iff_toNat.mp hc.2
  have hnotup : ¬ ('A' ≤ c ∧ c ≤ 'Z') := by
    intro hup
    have := hZ ▸ charLe_iff_toNat.mp hup.2
    omega
  unfold shiftChar
  rw [if_neg hnotup, if_pos hc]
  have hmlt : (c.toNat - 97 + (26 - k % 26)) % 26 < 26 := Nat.mod_lt _ (by norm_num)
  have ht : (Char.ofNat ((c.toNat - 97 + (26 - k % 26)) % 26 + 97)).toNat =
      (c.toNat - 97 + (26 - k % 26)) % 26 + 97 := charToNat_ofNat (by omega)
  have hk : k % 26 < 26 := Nat.mod_lt _ (by norm_num)
  refine ⟨?_, ?_, ?_⟩
  · rw [charLe_iff_toNat, ha, ht]
    omega
  · rw [charLe_iff_toNat, hz, ht]
    omega
  · show ((Char.ofNat ((c.toNat - 97 + (26 - k % 26)) % 26 + 97)).toNat : ℤ) % 26 =
      ((c.toNat : ℤ) - k) % 26
    rw [ht]
    omega

theorem shiftChar_other {c : Char} (h1 : ¬ ('A' ≤ c ∧ c ≤ 'Z'))
    (h2 : ¬ ('a' ≤ c ∧ c ≤ 'z')) (k : ℕ) : shiftChar c k = c := by
  unfold shiftChar
  rw [if_neg h1, if_neg h2]

/-- C4 (amended).  Whenever `rot_all(text, top_k=K)` succeeds — which it
does exactly when no rotated candidate matches the flag marker — it
returns `min(K, 25)` candidates; each carries some shift key `k` in
1..25, its plaintext is the same length as `text`, every character that
is not an ASCII letter is unchanged at its position, and every letter is
rotated backward by `k` within its own case's alphabet.  (Inputs where a
rotation matches the marker raise a `ValidationError` instead; see the
counterexample.) -/
theorem C4_rot_all_shape :
    ∀ (text : Str) (K : ℕ) (res : List BreakResult), 1 ≤ K →
      rot_all text K = .ok res →
      res.length = min K 25
      ∧ ∀ r ∈ res, ∃ k, 1 ≤ k ∧ k ≤ 25 ∧ r.key = some (natStr k)
          ∧ r.plaintext = shiftDecode text k
          ∧ r.plaintext.length = text.length
          ∧ ∀ i, i < text.length →
              ((¬ ('A' ≤ text.getD i ' ' ∧ text.getD i ' ' ≤ 'Z') →
                ¬ ('a' ≤ text.getD i ' ' ∧ text.getD i ' ' ≤ 'z') →
                r.plaintext.getD i ' ' = text.getD i ' ')
              ∧ (('A' ≤ text.getD i ' ' ∧ text.getD i ' ' ≤ 'Z') →
                  'A' ≤ r.plaintext.getD i ' ' ∧ r.plaintext.getD i ' ' ≤ 'Z' ∧
                  ((r.plaintext.getD i ' ').toNat : ℤ) ≡
                    ((text.getD i ' ').toNat : ℤ) - k [ZMOD 26])
              ∧ (('a' ≤ text.getD i ' ' ∧ text.getD i ' ' ≤ 'z') →
                  'a' ≤ r.plaintext.getD i ' ' ∧ r.plaintext.getD i ' ' ≤ 'z' ∧
                  ((r.plaintext.getD i ' ').toNat : ℤ) ≡
                    ((text.getD i ' ').toNat : ℤ) - k [ZMOD 26])) := by
  intro text K res hK h
  unfold rot_all at h
  obtain ⟨l, hl, rfl⟩ := bindSortTake_ok h
  have hraw : l = (List.range' 1 25).map (rotRaw text) :=
    mapE_ok_map (fun k y hy => by
      rw [mkBreakResult_ok hy]
      rfl) hl
  subst hraw
  constructor
  · rw [List.length_take, length_pySortDesc]
    simp
  · intro r hr
    have hr' : r ∈ pySortDesc BreakResult.confidence
        ((List.range' 1 25).map (rotRaw text)) := List.take_subset K _ hr
    have hr'' : r ∈ (List.range' 1 25).map (rotRaw text) :=
      (pySortDesc_perm _ _).mem_iff.mp hr'
    obtain ⟨k, hk, rfl⟩ := List.mem_map.mp hr''
    have hkr : 1 ≤ k ∧ k ≤ 25 := by
      obtain ⟨i, hi, rfl⟩ := List.mem_range'.mp hk
      omega
    refine ⟨k, hkr.1, hkr.2, rfl, rfl, by simp [rotRaw, shiftDecode], ?_⟩
    intro j hj
    dsimp only [rotRaw]
    have hgd : (shiftDecode text k).getD j ' ' =
        shiftChar (text.getD j ' ') k := by
      unfold shiftDecode
      rw [List.getD_eq_getElem?_getD, List.getD_eq_getElem?_getD,
        List.getElem?_map]
      rw [List.getElem?_eq_getElem hj]
      rfl
    rw [hgd]
    set c := text.getD j ' '
    refine ⟨fun h1 h2 => shiftChar_other h1 h2 _, fun hup => shiftChar_upper hup _,
      fun hlo => shiftChar_lower hlo _⟩

section C4Concrete

attribute [local semireducible] Rat.add Rat.mul Rat.sub Rat.inv

set_option maxRecDepth 20000

/-- Witness for C4 at `text = ""`, `K = 2`. -/
theorem C4_witness :
    (1 : ℕ) ≤ 2
    ∧ rot_all [] 2 = .ok [⟨"ROT1".data, [], some "1".data, 0⟩,
        ⟨"ROT2".data, [], some "2".data, 0⟩]
    ∧ ([⟨"ROT1".data, [], some "1".data, 0⟩,
        ⟨"ROT2".data, [], some "2".data, 0⟩] : List BreakResult).length = min 2 25
    ∧ ∀ r ∈ ([⟨"ROT1".data, [], some "1".data, 0⟩,
        ⟨"ROT2".data, [], some "2".data, 0⟩] : List BreakResult),
        ∃ k, 1 ≤ k ∧ k ≤ 25 ∧ r.key = some (natStr k) ∧ r.plaintext = shiftDecode [] k := by
  have h := C4_rot_all_shape [] 2
    [⟨"ROT1".data, [], some "1".data, 0⟩, ⟨"ROT2".data, [], some "2".data, 0⟩]
    (by norm_num) (by decide)
  exact ⟨by norm_num, by decide, h.1, fun r hr =>
    (h.2 r hr).elim (fun k hk => ⟨k, hk.1, hk.2.1, hk.2.2.1, hk.2.2.2.1⟩)⟩

/-- C4 (counterexample to "no input is an error"): `"hnci{c}"` rotates
under shift 2 to `"flag{a}"`, whose sentinel confidence `10.0` fails the
pydantic bound, so `rot_all` raises. -/
theorem C4_counterexample :
    rot_all ("hnci".data ++ [braceL] ++ "c".data ++ [braceR]) 3 =
      .error validationError := by
  rfl

end C4Concrete

/-!
## Claim C5: integer factorization
-/

theorem stripAux_spec : ∀ (fuel f n : ℕ), 2 ≤ f → 1 ≤ n → n ≤ fuel →
    n = f ^ (stripAux fuel f n).1 * (stripAux fuel f n).2 ∧
    ¬ f ∣ (stripAux fuel f n).2 ∧ 1 ≤ (stripAux fuel f n).2 := by
  intro fuel
  induction fuel with
  | zero => intro f n _ hn hfn; omega
  | succ fuel ih =>
    intro f n hf hn hfn
    by_cases hdvd : n % f = 0
    · have hfd : f ∣ n := Nat.dvd_of_mod_eq_zero hdvd
      have hq1 : 1 ≤ n / f := (Nat.one_le_div_iff (by omega)).mpr (Nat.le_of_dvd (by omega) hfd)
      have hqle : n / f ≤ fuel := by
        have : n / f < n := Nat.div_lt_self (by omega) (by omega)
        omega
      have hrec := ih f (n / f) hf hq1 hqle
      rcases hsp : stripAux fuel f (n / f) with ⟨c, n'⟩
      rw [hsp] at hrec
      have hn_eq : n = f * (n / f) := (Nat.div_mul_cancel hfd).symm.trans (by ring)
      simp only [stripAux, if_pos hdvd, hsp]
      refine ⟨?_, hrec.2.1, hrec.2.2⟩
      calc n = f * (n / f) := hn_eq
        _ = f * (f ^ c * n') := by rw [← hrec.1]
        _ = f ^ (c + 1) * n' := by ring
    · simp only [stripAux, if_neg hdvd]
      refine ⟨by simp, fun hd => hdvd ?_, hn⟩
      rcases hd with ⟨q, rfl⟩
      simp [Nat.mul_mod_right]

theorem tdLoop_spec : ∀ (fuel f n : ℕ) (res : List ℕ),
    3 ≤ f → f % 2 = 1 → 1 ≤ n →
    (∀ p, Nat.Prime p → p ∣ n → f ≤ p) →
    (∀ x ∈ res, Nat.Prime x) → (∀ x ∈ res, x < f) →
    ∃ g, f ≤ g ∧
      (tdLoop fuel f n res).1.prod * (tdLoop fuel f n res).2 = res.prod * n ∧
      1 ≤ (tdLoop fuel f n res).2 ∧
      (∀ x ∈ (tdLoop fuel f n res).1, Nat.Prime x) ∧
      (∀ x ∈ (tdLoop fuel f n res).1, x < g) ∧
      (∀ p, Nat.Prime p → p ∣ (tdLoop fuel f n res).2 → g ≤ p) := by
  intro fuel
  induction fuel with
  | zero =>
    intro f n res hf _ hn hmin hresP hresB
    exact ⟨f, le_refl f, rfl, hn, hresP, hresB, hmin⟩
  | succ fuel ih =>
    intro f n res hf hodd hn hmin hresP hresB
    by_cases hguard : f * f ≤ n ∧ f ≤ 100000
    · rcases hsp : stripAux n f n with ⟨c, n'⟩
      have hstrip := stripAux_spec n f n (by omega) hn (le_refl n)
      rw [hsp] at hstrip
      obtain ⟨hfact, hnd, hn'⟩ := hstrip
      have hfprime : 0 < c → Nat.Prime f := by
        intro hc
        have hfd : f ∣ n := by
          rw [hfact]
          exact Dvd.dvd.mul_right (dvd_pow_self f (by omega)) n'
        have hminf := Nat.minFac_prime (show f ≠ 1 by omega)
        have hmd : f.minFac ∣ n := (Nat.minFac_dvd f).trans hfd
        have h1 : f ≤ f.minFac := hmin _ hminf hmd
        have h2 : f.minFac ≤ f := Nat.minFac_le (by omega)
        have : f.minFac = f := le_antisymm h2 h1
        rw [← this]
        exact hminf
      have hresP' : ∀ x ∈ res ++ List.replicate c f, Nat.Prime x := by
        intro x hx
        rcases List.mem_append.mp hx with hx | hx
        · exact hresP x hx
        · rw [List.eq_of_mem_replicate hx]
          exact hfprime (by
            by_contra hc
            simp only [not_lt, Nat.le_zero] at hc
            rw [hc] at hx
            simp at hx)
      have hprod' : (res ++ List.replicate c f).prod = res.prod * f ^ c := by
        rw [List.prod_append, List.prod_replicate]
      have hmin' : ∀ p, Nat.Prime p → p ∣ n' → f + 1 ≤ p := by
        intro p hp hpd
        have hpn : p ∣ n := by
          rw [hfact]
          exact Dvd.dvd.mul_left hpd _
        have h1 := hmin p hp hpn
        rcases Nat.lt_or_ge f p with h | h
        · omega
        · have : p = f := by omega
          rw [this] at hpd
          exact absurd hpd hnd
      by_cases hbr : 1 < n' ∧ n' < 1000000 ∧ isProbablePrime n' = true
      · have hstep : tdLoop (fuel + 1) f n res = (res ++ List.replicate c f, n') := by
          simp only [tdLoop, if_pos hguard, hsp, if_pos hbr]
        refine ⟨f + 1, by omega, ?_, ?_, ?_, ?_, ?_⟩
        · rw [hstep]
          show (res ++ List.replicate c f).prod * n' = res.prod * n
          rw [hprod', hfact]
          ring
        · rw [hstep]
          exact hn'
        · rw [hstep]
          exact hresP'
        · rw [hstep]
          intro x hx
          rcases List.mem_append.mp hx with hx | hx
          · exact lt_trans (hresB x hx) (by omega)
          · rw [List.eq_of_mem_replicate hx]
            omega
        · rw [hstep]
          exact hmin'
      · have hmin'' : ∀ p, Nat.Prime p → p ∣ n' → f + 2 ≤ p := by
          intro p hp hpd
          have h1 := hmin' p hp hpd
          rcases Nat.lt_or_ge (f + 1) p with h | h
          · omega
          · have hpf : p = f + 1 := by omega
            have hpe : p % 2 = 0 := by omega
            have : p = 2 := (Nat.Prime.even_iff hp).mp (Nat.even_iff.mpr hpe)
            omega
        have hresB' : ∀ x ∈ res ++ List.replicate c f, x < f + 2 := by
          intro x hx
          rcases List.mem_append.mp hx with hx | hx
          · exact lt_trans (hresB x hx) (by omega)
          · rw [List.eq_of_mem_replicate hx]
            omega
        obtain ⟨g, hg, hrest⟩ := ih (f + 2) n' (res ++ List.replicate c f)
          (by omega) (by omega) hn' hmin'' hresP' hresB'
        have hstep : tdLoop (fuel + 1) f n res =
            tdLoop fuel (f + 2) n' (res ++ List.replicate c f) := by
          simp only [tdLoop, if_pos hguard, hsp, if_neg hbr]
        refine ⟨g, by omega, ?_, ?_, ?_, ?_, ?_⟩
        · rw [hstep, hrest.1, hprod', hfact]
          ring
        · rw [hstep]
          exact hrest.2.1
        · rw [hstep]
          exact hrest.2.2.1
        · rw [hstep]
          exact hrest.2.2.2.1
        · rw [hstep]
          exact hrest.2.2.2.2
    · have hstep : tdLoop (fuel + 1) f n res = (res, n) := by
        simp only [tdLoop, if_neg hguard]
      refine ⟨f, le_refl f, ?_, ?_, ?_, ?_, ?_⟩
      · rw [hstep]
      · rw [hstep]
        exact hn
      · rw [hstep]
        exact hresP
      · rw [hstep]
        exact hresB
      · rw [hstep]
        exact hmin

theorem trialDivision_spec (n : ℕ) (hn : 1 ≤ n) :
    (trialDivision n).prod = n ∧
    (∀ x ∈ trialDivision n, 2 ≤ x) ∧
    (∀ x ∈ trialDivision n, Nat.Prime x ∨ ∀ y ∈ trialDivision n, y ≤ x) := by
  rcases hsp : stripAux n 2 n with ⟨c2, n1⟩
  have hstrip := stripAux_spec n 2 n (le_refl 2) hn (le_refl n)
  rw [hsp] at hstrip
  dsimp only at hstrip
  obtain ⟨hfact, hnd2, hn1⟩ := hstrip
  have hres0P : ∀ x ∈ List.replicate c2 2, Nat.Prime x := by
    intro x hx
    rw [List.eq_of_mem_replicate hx]
    exact Nat.prime_two
  have hres0B : ∀ x ∈ List.replicate c2 2, x < 3 := by
    intro x hx
    rw [List.eq_of_mem_replicate hx]
    omega
  have hmin1 : ∀ p, Nat.Prime p → p ∣ n1 → 3 ≤ p := by
    intro p hp hpd
    have h2 := hp.two_le
    rcases Nat.lt_or_ge p 3 with h | h
    · have : p = 2 := by omega
      rw [this] at hpd
      exact absurd hpd hnd2
    · exact h
  obtain ⟨g, hg3, hloop⟩ := tdLoop_spec 50001 3 n1 (List.replicate c2 2)
    (le_refl 3) (by norm_num) hn1 hmin1 hres0P hres0B
  rcases htd : tdLoop 50001 3 n1 (List.replicate c2 2) with ⟨res', n'⟩
  rw [htd] at hloop
  dsimp only at hloop
  obtain ⟨hprod, hn'1, hresP, hresB, hminN⟩ := hloop
  have hprod0 : (List.replicate c2 2).prod = 2 ^ c2 := List.prod_replicate c2 2
  have htd_def : trialDivision n = if 1 < n' then res' ++ [n'] else res' := by
    unfold trialDivision
    rw [hsp]
    dsimp only
    rw [htd]
  by_cases hbig : 1 < n'
  · rw [htd_def, if_pos hbig]
    refine ⟨?_, ?_, ?_⟩
    · rw [List.prod_append, List.prod_cons, List.prod_nil, mul_one, hprod, hprod0, hfact]
    · intro x hx
      rcases List.mem_append.mp hx with hx | hx
      · exact (hresP x hx).two_le
      · simp only [List.mem_singleton] at hx
        omega
    · intro x hx
      rcases List.mem_append.mp hx with hx | hx
      · exact Or.inl (hresP x hx)
      · simp only [List.mem_singleton] at hx
        refine Or.inr ?_
        rw [hx]
        have hgn : g ≤ n' := by
          have hmf := Nat.minFac_prime (show n' ≠ 1 by omega)
          have := hminN _ hmf (Nat.minFac_dvd n')
          exact le_trans this (Nat.minFac_le (by omega))
        intro y hy
        rcases List.mem_append.mp hy with hy | hy
        · exact le_of_lt (lt_of_lt_of_le (hresB y hy) hgn)
        · simp only [List.mem_singleton] at hy
          omega
  · have hn'eq : n' = 1 := by omega
    rw [htd_def, if_neg hbig]
    refine ⟨?_, fun x hx => (hresP x hx).two_le, fun x hx => Or.inl (hresP x hx)⟩
    have hres'prod : res'.prod = 2 ^ c2 * n1 := by
      have h1 : res'.prod * n' = (List.replicate c2 2).prod * n1 := hprod
      rw [hn'eq, mul_one, hprod0] at h1
      exact h1
    rw [hres'prod, ← hfact]

theorem factorInternal_eq_sort (n : ℕ) (hn : 1 ≤ n) :
    factorInternal n = pySortAsc (fun x => x) (trialDivision n) := by
  have hfoldl : (trialDivision n).foldl (· * ·) 1 = n := by
    rw [← List.prod_eq_foldl]
    exact (trialDivision_spec n hn).1
  have hdiv : n / n = 1 := Nat.div_self (by omega)
  unfold factorInternal
  simp only [hfoldl, hdiv, lt_self_iff_false, if_false]

theorem factorInternal_spec (n : ℕ) (hn : 1 ≤ n) :
    (factorInternal n).prod = n ∧
    (factorInternal n).Pairwise (· ≤ ·) ∧
    (∀ x ∈ factorInternal n, 2 ≤ x) ∧
    (∀ x ∈ factorInternal n, Nat.Prime x ∨ ∀ y ∈ factorInternal n, y ≤ x) := by
  obtain ⟨hprod, h2, hP⟩ := trialDivision_spec n hn
  rw [factorInternal_eq_sort n hn]
  have hperm := pySortAsc_perm (fun x : ℕ => x) (trialDivision n)
  refine ⟨by rw [hperm.prod_eq, hprod], ?_, ?_, ?_⟩
  · exact pySortAsc_sorted (fun x => x) (trialDivision n)
  · intro x hx
    exact h2 x (hperm.mem_iff.mp hx)
  · intro x hx
    rcases hP x (hperm.mem_iff.mp hx) with h | h
    · exact Or.inl h
    · exact Or.inr (fun y hy => h y (hperm.mem_iff.mp hy))

theorem prod_eq_prime {l : List ℕ} {p : ℕ} (hp : Nat.Prime p)
    (hprod : l.prod = p) (h2 : ∀ x ∈ l, 2 ≤ x) : l = [p] := by
  cases l with
  | nil =>
    simp at hprod
    exact absurd hprod.symm (Nat.Prime.ne_one hp)
  | cons x t =>
    cases t with
    | nil =>
      simp at hprod
      rw [hprod]
    | cons y t2 =>
      exfalso
      simp only [List.prod_cons] at hprod
      have hx2 := h2 x (by simp)
      have hy2 := h2 y (by simp)
      have hxd : x ∣ p := ⟨(y :: t2).prod, by rw [← hprod]; simp⟩
      rcases (Nat.Prime.eq_one_or_self_of_dvd hp x hxd) with h | h
      · omega
      · subst h
        have hyt : y * t2.prod = 1 := by
          have hxpos : 0 < x := by omega
          have := hprod
          nlinarith [hp.two_le, List.prod_cons (l := t2) (a := y)]
        have : y ∣ 1 := ⟨t2.prod, hyt.symm⟩
        have := Nat.le_of_dvd (by omega) this
        omega

/-- C5 (amended).  With the external factorization tool unavailable,
`factor_integer(n)` returns the decimal strings of `_factor_internal(n)`,
which for every `n ≥ 2` is ascending (with multiplicity), multiplies to
`n`, has entries ≥ 2, and consists of primes except possibly the largest
entry (the unfactored cofactor left when trial division up to `100000`
gives up; Pollard's rho is dead code because `n // prod(td)` is always
`1`).  Moreover `factor_integer(1).factors = []` and
`factor_integer(p).factors = [str(p)]` for every prime `p`. -/
theorem C5_factor_integer :
    (∀ n : ℕ, 2 ≤ n →
      (factor_integer n).factors = (factorInternal n).map natStr ∧
      (factorInternal n).prod = n ∧
      (factorInternal n).Pairwise (· ≤ ·) ∧
      (∀ x ∈ factorInternal n, 2 ≤ x) ∧
      (∀ x ∈ factorInternal n, Nat.Prime x ∨ ∀ y ∈ factorInternal n, y ≤ x))
    ∧ (factor_integer 1).factors = []
    ∧ (∀ p : ℕ, Nat.Prime p → (factor_integer p).factors = [natStr p]) := by
  refine ⟨?_, ?_, ?_⟩
  · intro n hn
    obtain ⟨h1, h2, h3, h4⟩ := factorInternal_spec n (by omega)
    exact ⟨rfl, h1, h2, h3, h4⟩
  · decide
  · intro p hp
    obtain ⟨h1, _, h3, _⟩ := factorInternal_spec p (le_of_lt hp.one_lt)
    have : factorInternal p = [p] := prod_eq_prime hp h1 h3
    show (factorInternal p).map natStr = [natStr p]
    rw [this]
    rfl

/-- Witness for C5 at `n = 12` and the prime `5`. -/
theorem C5_witness :
    factorInternal 12 = [2, 2, 3]
    ∧ (2 : ℕ) ≤ 12 ∧ (factorInternal 12).prod = 12
    ∧ Nat.Prime 5 ∧ (factor_integer 5).factors = [natStr 5] :=
  ⟨by decide, by norm_num, (C5_factor_integer.1 12 (by norm_num)).2.1,
    by norm_num, C5_factor_integer.2.2 5 (by norm_num)⟩

/-- As long as no candidate factor divides `n` (and `n` stays above the
early-termination threshold), the odd-factor loop just steps `f` by 2. -/
theorem tdLoop_skip : ∀ (k fuel f n : ℕ) (res : List ℕ),
    k ≤ fuel → 0 < f → 1000000 ≤ n →
    (∀ j, j < k → ¬ (f + 2 * j) ∣ n) →
    (∀ j, j < k → (f + 2 * j) * (f + 2 * j) ≤ n ∧ f + 2 * j ≤ 100000) →
    tdLoop fuel f n res = tdLoop (fuel - k) (f + 2 * k) n res := by
  intro k
  induction k with
  | zero => intro fuel f n res _ _ _ _ _; simp
  | succ k ih =>
    intro fuel f n res hk hf hn hdvd hgd
    obtain ⟨fu, rfl⟩ : ∃ m, fuel = m + 1 := ⟨fuel - 1, by omega⟩
    have hg0 := hgd 0 (by omega)
    have hnd : ¬ f ∣ n := by
      have := hdvd 0 (by omega)
      simpa using this
    have hmod : n % f ≠ 0 := fun h => hnd (Nat.dvd_of_mod_eq_zero h)
    have hstrip : stripAux n f n = (0, n) := by
      obtain ⟨m, hm⟩ : ∃ m, n = m + 1 := ⟨n - 1, by omega⟩
      rw [hm] at hmod ⊢
      simp only [stripAux, if_neg hmod]
    have hguard : f * f ≤ n ∧ f ≤ 100000 := by
      constructor
      · simpa using hg0.1
      · simpa using hg0.2
    have hnobreak : ¬ (1 < n ∧ n < 1000000 ∧ isProbablePrime n = true) := by
      rintro ⟨-, h2, -⟩
      omega
    have hstep : tdLoop (fu + 1) f n res = tdLoop fu (f + 2) n res := by
      simp only [tdLoop, if_pos hguard, hstrip]
      rw [if_neg hnobreak]
      simp
    rw [hstep]
    have hrec := ih fu (f + 2) n res (by omega) (by omega) hn
      (fun j hj => by
        have h := hdvd (j + 1) (by omega)
        have he : f + 2 * (j + 1) = f + 2 + 2 * j := by ring
        rw [he] at h
        exact h)
      (fun j hj => by
        have h := hgd (j + 1) (by omega)
        have he : f + 2 * (j + 1) = f + 2 + 2 * j := by ring
        rw [he] at h
        exact h)
    rw [hrec]
    have h1 : fu + 1 - (k + 1) = fu - k := by omega
    have h2 : f + 2 + 2 * k = f + 2 * (k + 1) := by ring
    rw [h1, h2]

section C5Counterexample

/-- No integer in `2..100001` divides `100003 * 100019`. -/
theorem no_small_divisor :
    ∀ g : ℕ, 1 < g → g ≤ 100001 → ¬ g ∣ 10002200057 := by
  have hp1 : Nat.Prime 100003 := by norm_num
  have hp2 : Nat.Prime 100019 := by norm_num
  have hN : (10002200057 : ℕ) = 100003 * 100019 := by norm_num
  intro g hg1 hg2 hdvd
  obtain ⟨r, hrp, hrg⟩ := Nat.exists_prime_and_dvd (show g ≠ 1 by omega)
  have hrN : r ∣ 100003 * 100019 := hN ▸ hrg.trans hdvd
  have hr : r = 100003 ∨ r = 100019 := by
    rcases (Nat.Prime.dvd_mul hrp).mp hrN with h | h
    · exact Or.inl ((Nat.prime_dvd_prime_iff_eq hrp hp1).mp h)
    · exact Or.inr ((Nat.prime_dvd_prime_iff_eq hrp hp2).mp h)
  have hrle : r ≤ g := Nat.le_of_dvd (by omega) hrg
  rcases hr with rfl | rfl <;> omega

/-- C5 (counterexample).  `10002200057 = 100003 × 100019` has both prime
factors above the trial-division limit `100000`, so `_factor_internal`
returns the composite cofactor itself as its only "factor" — the claim
that every returned factor is prime is false.  (Pollard's rho never runs:
`n // prod(td)` is `1`.) -/
theorem C5_counterexample :
    factorInternal 10002200057 = [10002200057]
    ∧ (factor_integer 10002200057).factors = [natStr 10002200057]
    ∧ ¬ Nat.Prime 10002200057
    ∧ 1 < (10002200057 : ℕ) := by
  have hstrip2 : stripAux 10002200057 2 10002200057 = (0, 10002200057) := by
    decide
  have hskip := tdLoop_skip 49999 50001 3 10002200057 []
    (by norm_num) (by norm_num) (by norm_num)
    (fun j hj => no_small_divisor (3 + 2 * j) (by omega) (by omega))
    (fun j hj => ⟨by
      calc (3 + 2 * j) * (3 + 2 * j) ≤ 99999 * 99999 :=
        Nat.mul_le_mul (by omega) (by omega)
      _ ≤ 10002200057 := by norm_num, by omega⟩)
  norm_num at hskip
  have hdone : tdLoop 2 100001 10002200057 [] = ([], 10002200057) := by
    decide
  have htd : trialDivision 10002200057 = [10002200057] := by
    unfold trialDivision
    rw [hstrip2]
    dsimp only
    rw [show List.replicate 0 2 = ([] : List ℕ) from rfl]
    rw [hskip, hdone]
    norm_num
  have hfi : factorInternal 10002200057 = [10002200057] := by
    unfold factorInternal
    rw [htd]
    have hfoldl : ([10002200057] : List ℕ).foldl (· * ·) 1 = 10002200057 := by decide
    simp only [hfoldl, Nat.div_self (show 0 < 10002200057 by norm_num),
      lt_self_iff_false, if_false]
    decide
  have hnp : ¬ Nat.Prime 10002200057 := by
    intro h
    rcases h.eq_one_or_self_of_dvd 100003 ⟨100019, by norm_num⟩ with h1 | h1 <;>
      norm_num at h1
  refine ⟨hfi, ?_, hnp, by norm_num⟩
  unfold factor_integer
  dsimp only
  rw [hfi]
  simp only [List.map_cons, List.map_nil]

end C5Counterexample

/-! Rail-fence structure lemmas. -/

theorem length_railPatternAux (rails : ℕ) : ∀ (fuel r : ℕ) (d : Int),
    (railPatternAux rails fuel r d).length = fuel := by
  intro fuel
  induction fuel with
  | zero => intro r d; rfl
  | succ n ih => intro r d; simp [railPatternAux, ih]

theorem railPattern_length (n rails : ℕ) : (railPattern n rails).length = n :=
  length_railPatternAux rails n 0 1

/-- Row invariant of `_rail_pattern`: going down the row is below the last
rail, going up it is above row 0; hence every emitted row index is `< rails`. -/
theorem railPatternAux_lt (rails : ℕ) (h2 : 2 ≤ rails) : ∀ (fuel r : ℕ) (d : Int),
    ((d = 1 ∧ r < rails - 1) ∨ (d = -1 ∧ 0 < r ∧ r < rails)) →
    ∀ x ∈ railPatternAux rails fuel r d, x < rails := by
  intro fuel
  induction fuel with
  | zero => intro r d _ x hx; cases hx
  | succ n ih =>
    intro r d hinv x hx
    simp only [railPatternAux, List.mem_cons] at hx
    rcases hx with rfl | hx
    · rcases hinv with ⟨_, hr⟩ | ⟨_, _, hr⟩ <;> omega
    · refine ih _ _ ?_ x hx
      rcases hinv with ⟨hd, hr⟩ | ⟨hd, hr0, hr⟩
      · subst hd
        have hr' : ((r : Int) + 1).toNat = r + 1 := by omega
        rw [hr', if_neg (show ¬(r + 1 = 0) by omega)]
        by_cases hb : r + 1 = rails - 1
        · rw [if_pos hb]
          exact Or.inr ⟨rfl, by omega, by omega⟩
        · rw [if_neg hb]
          exact Or.inl ⟨rfl, by omega⟩
      · subst hd
        have hr' : ((r : Int) + -1).toNat = r - 1 := by omega
        rw [hr']
        by_cases hz : r - 1 = 0
        · rw [if_pos hz]
          exact Or.inl ⟨rfl, by omega⟩
        · rw [if_neg hz]
          by_cases hb : r - 1 = rails - 1
          · rw [if_pos hb]
            exact Or.inr ⟨rfl, by omega, by omega⟩
          · rw [if_neg hb]
            exact Or.inr ⟨rfl, by omega, by omega⟩

theorem mem_railRow {pat : List ℕ} {row i : ℕ} :
    i ∈ railRow pat row ↔ i < pat.length ∧ pat.getD i 0 = row := by
  simp [railRow, List.mem_filter, List.mem_range]

theorem railOrder_nodup (n rails : ℕ) : (railOrder n rails).Nodup := by
  rw [railOrder, List.nodup_flatMap]
  refine ⟨fun row _ => (List.nodup_range _).filter _, ?_⟩
  refine (List.nodup_range rails).imp ?_
  intro a b hab x hxa hxb
  rw [mem_railRow] at hxa hxb
  exact hab (hxa.2.symm.trans hxb.2)

theorem mem_railOrder {n rails i : ℕ} (h2 : 2 ≤ rails) :
    i ∈ railOrder n rails ↔ i < n := by
  simp only [railOrder, List.mem_flatMap, List.mem_range]
  constructor
  · rintro ⟨row, _, hrow⟩
    have := (mem_railRow.mp hrow).1
    rwa [railPattern_length] at this
  · intro hi
    have hlen : i < (railPattern n rails).length := by
      rw [railPattern_length]; exact hi
    refine ⟨(railPattern n rails).getD i 0, ?_, mem_railRow.mpr ⟨hlen, rfl⟩⟩
    have hmem : (railPattern n rails).getD i 0 ∈ railPattern n rails := by
      rw [List.getD_eq_getElem _ _ hlen]
      exact List.getElem_mem hlen
    exact railPatternAux_lt rails h2 n 0 1 (Or.inl ⟨rfl, by omega⟩) _ hmem

theorem railOrder_perm (n rails : ℕ) (h2 : 2 ≤ rails) :
    List.Perm (railOrder n rails) (List.range n) := by
  rw [List.perm_ext_iff_of_nodup (railOrder_nodup n rails) (List.nodup_range n)]
  intro a
  rw [mem_railOrder h2, List.mem_range]

theorem railOrder_length (n rails : ℕ) (h2 : 2 ≤ rails) :
    (railOrder n rails).length = n := by
  rw [(railOrder_perm n rails h2).length_eq, List.length_range]

/-- Decryption inverts the zig-zag encoding, for every string and rail count. -/
theorem rail_roundtrip (s : Str) (rails : ℕ) (h2 : 2 ≤ rails) :
    rail_fence_decrypt (railFenceEncrypt s rails) rails = s := by
  have hlen : (railFenceEncrypt s rails).length = s.length := by
    rw [railFenceEncrypt, List.length_map, railOrder_length s.length rails h2]
  simp only [rail_fence_decrypt, hlen]
  apply List.ext_getElem
  · simp
  · intro i h1 his
    simp only [List.getElem_map, List.getElem_range]
    have hmem : i ∈ railOrder s.length rails := (mem_railOrder h2).mpr his
    have hidx : (railOrder s.length rails).indexOf i < (railOrder s.length rails).length :=
      List.indexOf_lt_length.mpr hmem
    have hidx' : (railOrder s.length rails).indexOf i <
        ((railOrder s.length rails).map (fun j => s.getD j ' ')).length := by
      simpa using hidx
    rw [railFenceEncrypt, List.getD_eq_getElem _ _ hidx']
    simp only [List.getElem_map]
    rw [List.getElem_indexOf hidx, List.getD_eq_getElem _ _ his]

/-! Evaluation lemmas for the fixture. -/

theorem take_range' : ∀ (n s k : ℕ), (List.range' s n).take k = List.range' s (min k n) := by
  intro n
  induction n with
  | zero => intro s k; simp
  | succ n ih =>
    intro s k
    cases k with
    | zero => simp
    | succ k =>
      rw [List.range'_succ, List.take_succ_cons, ih, Nat.succ_min_succ, List.range'_succ]

theorem mapE_ok_of_forall {α β ε : Type} {f : α → Except ε β} {g : α → β} :
    ∀ (l : List α), (∀ x ∈ l, f x = .ok (g x)) → mapE f l = .ok (l.map g) := by
  intro l
  induction l with
  | nil => intro _; rfl
  | cons x xs ih =>
    intro h
    simp only [mapE]
    rw [h x (List.mem_cons_self x xs), ih (fun y hy => h y (List.mem_cons_of_mem x hy))]
    rfl

theorem mkBreakResult_ok_of {alg pt : Str} {key : Option Str} {conf : ℚ}
    (h0 : 0 ≤ conf) (h1 : conf ≤ 1) :
    mkBreakResult alg pt key conf = .ok ⟨alg, pt, key, conf⟩ := by
  unfold mkBreakResult
  rw [if_pos ⟨h0, h1⟩]

section C6Eval
attribute [local semireducible] Rat.add Rat.mul Rat.sub Rat.inv
set_option maxRecDepth 20000

/-- The evaluated candidate table matches the program's candidates. -/
theorem c6L_spec : railCandidates c6CT 21 = c6L := by decide

theorem c6L_conf : ∀ r ∈ c6L, 0 ≤ r.confidence ∧ r.confidence ≤ 1 := by decide

theorem c6_sorted_take (m : ℕ) (h3 : 3 ≤ m) (h20 : m ≤ 20) :
    (((pySortDesc BreakResult.confidence (c6L.take (m - 1))).take 3).any
      (fun r => r.key == some ("3".data) && r.plaintext == c6PT)) = true := by
  have h : ∀ m' : ℕ, m' < 21 → 3 ≤ m' →
      (((pySortDesc BreakResult.confidence (c6L.take (m' - 1))).take 3).any
        (fun r => r.key == some ("3".data) && r.plaintext == c6PT)) = true := by decide
  exact h m (by omega) h3

end C6Eval

/-- `rail_fence_break` on the fixture ciphertext evaluates to the sorted,
truncated prefix of the certified candidate table. -/
theorem rail_break_c6 (m : ℕ) (h2 : 2 ≤ m) (h21 : m ≤ 21) :
    rail_fence_break c6CT m 3 =
      .ok ((pySortDesc BreakResult.confidence (c6L.take (m - 1))).take 3) := by
  have hcand : railCandidates c6CT m = c6L.take (m - 1) := by
    rw [← c6L_spec]
    unfold railCandidates
    rw [← List.map_take, take_range', show min (m - 1) (21 - 1) = m - 1 from by omega]
  have hconf : ∀ r ∈ railCandidates c6CT m, 0 ≤ r.confidence ∧ r.confidence ≤ 1 := by
    rw [hcand]
    intro r hr
    exact c6L_conf r (List.mem_of_mem_take hr)
  have hfok : ∀ rails ∈ List.range' 2 (m - 1),
      mkBreakResult "RailFence".data (rail_fence_decrypt c6CT rails) (some (natStr rails))
        (english_score (rail_fence_decrypt c6CT rails)) =
      .ok ⟨"RailFence".data, rail_fence_decrypt c6CT rails, some (natStr rails),
        english_score (rail_fence_decrypt c6CT rails)⟩ := by
    intro rails hrails
    have hmem : (⟨"RailFence".data, rail_fence_decrypt c6CT rails, some (natStr rails),
        english_score (rail_fence_decrypt c6CT rails)⟩ : BreakResult) ∈ railCandidates c6CT m :=
      List.mem_map.mpr ⟨rails, hrails, rfl⟩
    exact mkBreakResult_ok_of (hconf _ hmem).1 (hconf _ hmem).2
  unfold rail_fence_break
  rw [mapE_ok_of_forall _ hfok]
  show Except.ok _ = _
  rw [show ((List.range' 2 (m - 1)).map (fun rails =>
      (⟨"RailFence".data, rail_fence_decrypt c6CT rails, some (natStr rails),
        english_score (rail_fence_decrypt c6CT rails)⟩ : BreakResult))) = c6L.take (m - 1)
    from hcand]



section C6Final
attribute [local semireducible] Rat.add Rat.mul Rat.sub Rat.inv
set_option maxRecDepth 20000

/-- C6 (amended): rail-fence decryption inverts the zig-zag encoding for every
string and every rail count `rails ≥ 2`; and `rail_fence_break` applied to the
3-rail encoding of `"WEAREDISCOVEREDFLEEATONCE"` with `3 ≤ max_rails ≤ 20`
returns a candidate whose key is `"3"` and whose plaintext is the original. -/
theorem C6_rail_fence_roundtrip :
    (∀ (s : Str) (rails : ℕ), 2 ≤ rails →
        rail_fence_decrypt (railFenceEncrypt s rails) rails = s)
    ∧ (∀ m : ℕ, 3 ≤ m → m ≤ 20 →
        ∃ res, rail_fence_break (railFenceEncrypt c6PT 3) m 3 = .ok res ∧
          ∃ r ∈ res, r.key = some ("3".data) ∧ r.plaintext = c6PT) := by
  constructor
  · exact rail_roundtrip
  · intro m h3 h20
    refine ⟨_, rail_break_c6 m (by omega) (by omega), ?_⟩
    have hany := c6_sorted_take m h3 h20
    rw [List.any_eq_true] at hany
    obtain ⟨r, hrmem, hp⟩ := hany
    simp only [Bool.and_eq_true, beq_iff_eq] at hp
    exact ⟨r, hrmem, hp.1, hp.2⟩

/-- Witness for C6 at concrete inputs. -/
theorem C6_witness :
    rail_fence_decrypt (railFenceEncrypt ("AB".data) 2) 2 = "AB".data
    ∧ ∃ res, rail_fence_break (railFenceEncrypt c6PT 3) 3 3 = .ok res ∧
        ∃ r ∈ res, r.key = some ("3".data) ∧ r.plaintext = c6PT :=
  ⟨C6_rail_fence_roundtrip.1 ("AB".data) 2 (by norm_num),
   C6_rail_fence_roundtrip.2 3 (by norm_num) (by norm_num)⟩

/-- C6 counterexample to the original claim: at `max_rails = 21 ≥ 3` the top 3
candidates are the keys 19, 20 and 21, and no returned candidate has key "3". -/
theorem C6_counterexample :
    3 ≤ 21
    ∧ ∃ res, rail_fence_break (railFenceEncrypt c6PT 3) 21 3 = .ok res ∧
        res.map BreakResult.key = [some ("19".data), some ("20".data), some ("21".data)]
        ∧ ∀ r ∈ res, ¬(r.key = some ("3".data) ∧ r.plaintext = c6PT) := by
  refine ⟨by norm_num, _, rail_break_c6 21 (by norm_num) (by norm_num), ?_, ?_⟩
  · decide
  · decide

end C6Final

end KeyKid
